import Mathlib

/-!
The open-addressing hash table of `src/objects/hash-table-inl.h`.

A shallow embedding of the inline part of V8's `HashTableBase` / `HashTable`
and theorems about it.  C++ `int` and `uint32_t` values are mathematical
integers with the 32-bit wrap-around written out; a read or store whose
`DCHECK`ed precondition fails is a `fault`; the unbounded `while (true)` loop of
`FindEntry` is run with fuel.
-/

namespace V8

/-! ## Machine integers -/

/-- The values of a C++ `int` (32 bits, two's complement). -/
def IsInt32 (x : Int) : Prop := -2147483648 ≤ x ∧ x ≤ 2147483647

instance (x : Int) : Decidable (IsInt32 x) :=
  inferInstanceAs (Decidable (-2147483648 ≤ x ∧ x ≤ 2147483647))

/-- Conversion of an integer to `int`: the identity on the values of an
`int`, and reduction modulo `2^32` into `[-2^31, 2^31)` on the others. -/
def wrapInt32 (x : Int) : Int :=
  if IsInt32 x then x else (x + 2147483648) % 4294967296 - 2147483648

/-- Conversion of an integer to `uint32_t`: reduction modulo `2^32`. -/
def wrapUint32 (x : Int) : Nat := (x % 4294967296).toNat

/-- Modelled from the spec: the search behind `RoundUpToPowerOfTwo32`, for the
smallest power of two that is at least `value`, going through `p, 2p, 4p, ...`
for at most `fuel` doublings. -/
def roundUpFrom (value : Nat) : Nat → Nat → Nat
  | 0, p => p
  | fuel + 1, p => if value ≤ p then p else roundUpFrom value fuel (2 * p)

/-- Modelled from the spec: `base::bits::RoundUpToPowerOfTwo32` (declared in
`src/base/bits.h`, which is not among the sources): "the smallest power of two ≥
raw", as a `uint32_t`, so the value `2^32` wraps to `0`. -/
def RoundUpToPowerOfTwo32 (value : Nat) : Nat := roundUpFrom value 32 1 % 4294967296

/-- Translation of `HashTableBase::ComputeCapacity`:

    int raw_cap = at_least_space_for + (at_least_space_for >> 1);
    int capacity = base::bits::RoundUpToPowerOfTwo32(raw_cap);
    return Max(capacity, kMinCapacity);

The constant `kMinCapacity` is declared in `hash-table.h`, which is not among
the sources, and is a parameter. -/
def ComputeCapacity (kMinCapacity : Int) (at_least_space_for : Int) : Int :=
  let raw_cap : Int := wrapInt32 (at_least_space_for + (at_least_space_for >>> (1 : Nat)))
  let capacity : Int := wrapInt32 (RoundUpToPowerOfTwo32 (wrapUint32 raw_cap))
  max capacity kMinCapacity

/-! ## Tagged values, roots and the backing store -/

/-- Modelled from the spec: `Object` (declared in `objects.h`, not among the
sources), a "tagged reference": "either an inline small-integer or an encoded
pointer to heap-managed storage".  Two values are the same object exactly when
they are equal. -/
inductive Object
  | smi (value : Int)
  | heapObject (address : Nat)
  deriving DecidableEq

/-- Modelled from the spec: the part of `ReadOnlyRoots` (declared in `roots.h`,
not among the sources) the table reads: the "two process-wide singleton tagged
values", `undefined_value` for an Empty key slot and `the_hole_value` for a
Tombstone.  They are two different objects. -/
structure ReadOnlyRoots where
  undefined_value : Object
  the_hole_value : Object
  distinct : the_hole_value ≠ undefined_value

/-- Modelled from the spec: `Smi::FromInt` (declared in `smi.h`, not among the
sources): the small-integer value holding `value`. -/
def Smi.FromInt (value : Int) : Object := Object.smi value

/-- Modelled from the spec: reading a slot as `Smi` and taking its `value()`
(`smi.h`, not among the sources): the slot has to hold a small integer, and the
result is an `int`. -/
def Smi.ToInt : Object → Option Int
  | Object.smi v => if IsInt32 v then some v else none
  | Object.heapObject _ => none

/-- Modelled from the spec: the `FixedArray` (declared in `fixed-array.h`, not
among the sources) a hash table is stored in: "one contiguous region addressed by
integer offsets", "an index-addressed array". -/
structure FixedArray where
  elements : List Object
  deriving DecidableEq

/-- Modelled from the spec: `FixedArray::length`. -/
def FixedArray.length (a : FixedArray) : Int := a.elements.length

/-- Modelled from the spec: `FixedArray::get(index)`; `none` when the index is
outside the array. -/
def FixedArray.get (a : FixedArray) (index : Int) : Option Object :=
  if 0 ≤ index then a.elements[index.toNat]? else none

/-- Modelled from the spec: `FixedArray::set(index, value)`; `none` when the
index is outside the array. -/
def FixedArray.set (a : FixedArray) (index : Int) (value : Object) : Option FixedArray :=
  if 0 ≤ index ∧ index < a.length then some ⟨a.elements.set index.toNat value⟩ else none

/-! ## Header -/

/-- Modelled from the spec: the header layout constants of `hash-table.h` (not
among the sources): "fixed-layout header (element count, deleted count,
capacity) plus a flat entry region". -/
def kNumberOfElementsIndex : Int := 0

/-- Modelled from the spec: second header field, the deleted count. -/
def kNumberOfDeletedElementsIndex : Int := 1

/-- Modelled from the spec: third header field, the capacity. -/
def kCapacityIndex : Int := 2

/-- Modelled from the spec: the first slot after the three header fields. -/
def kPrefixStartIndex : Int := 3

/-- `TaggedField<Smi>::load(*this, OffsetOfElementAt(index)).value()`: the
integer held by element `index`. -/
def loadSmi (t : FixedArray) (index : Int) : Option Int :=
  (t.get index).bind Smi.ToInt

/-- `HashTableBase::NumberOfElements`. -/
def NumberOfElements (t : FixedArray) : Option Int := loadSmi t kNumberOfElementsIndex

/-- `HashTableBase::NumberOfDeletedElements`. -/
def NumberOfDeletedElements (t : FixedArray) : Option Int :=
  loadSmi t kNumberOfDeletedElementsIndex

/-- `HashTableBase::Capacity`. -/
def Capacity (t : FixedArray) : Option Int := loadSmi t kCapacityIndex

/-- `HashTableBase::SetNumberOfElements`. -/
def SetNumberOfElements (t : FixedArray) (nof : Int) : Option FixedArray :=
  t.set kNumberOfElementsIndex (Smi.FromInt nof)

/-- `HashTableBase::SetNumberOfDeletedElements`. -/
def SetNumberOfDeletedElements (t : FixedArray) (nod : Int) : Option FixedArray :=
  t.set kNumberOfDeletedElementsIndex (Smi.FromInt nod)

/-- `HashTableBase::ElementAdded`. -/
def ElementAdded (t : FixedArray) : Option FixedArray :=
  (NumberOfElements t).bind fun nof =>
  SetNumberOfElements t (wrapInt32 (nof + 1))

/-- `HashTableBase::ElementRemoved`. -/
def ElementRemoved (t : FixedArray) : Option FixedArray :=
  (NumberOfElements t).bind fun nof =>
  (SetNumberOfElements t (wrapInt32 (nof - 1))).bind fun t1 =>
  (NumberOfDeletedElements t1).bind fun nod =>
  SetNumberOfDeletedElements t1 (wrapInt32 (nod + 1))

/-- `HashTableBase::ElementsRemoved`. -/
def ElementsRemoved (t : FixedArray) (n : Int) : Option FixedArray :=
  (NumberOfElements t).bind fun nof =>
  (SetNumberOfElements t (wrapInt32 (nof - n))).bind fun t1 =>
  (NumberOfDeletedElements t1).bind fun nod =>
  SetNumberOfDeletedElements t1 (wrapInt32 (nod + n))

/-- The two `DCHECK`s of `HashTable::SetCapacity`:
`DCHECK_GT(capacity, 0)` and `DCHECK_LE(capacity, kMaxCapacity)`. -/
def SetCapacityChecks (kMaxCapacity capacity : Int) : Bool :=
  decide (capacity > 0) && decide (capacity ≤ kMaxCapacity)

/-- `HashTable::SetCapacity`; `none` when one of its `DCHECK`s fails.  The
constant `kMaxCapacity` is declared in `hash-table.h` and is a parameter. -/
def SetCapacity (kMaxCapacity : Int) (t : FixedArray) (capacity : Int) : Option FixedArray :=
  if SetCapacityChecks kMaxCapacity capacity then t.set kCapacityIndex (Smi.FromInt capacity)
  else none

/-- The three header fields `(elements, deleted, capacity)`. -/
def Header (t : FixedArray) : Option (Int × Int × Int) :=
  (NumberOfElements t).bind fun nof =>
  (NumberOfDeletedElements t).bind fun nod =>
  (Capacity t).bind fun cap => some (nof, nod, cap)

/-! ## Shape, entries and probing -/

/-- Modelled from the spec: the members of the `Shape` template parameter
(declared in `hash-table.h`, not among the sources) that the inline methods use:
the "Shape Policy" with its `match`, `needsHoleCheck` and entry layout. -/
structure Shape (Key : Type) where
  kNeedsHoleCheck : Bool
  IsMatch : Key → Object → Bool
  kPrefixSize : Int
  kEntrySize : Int

/-- Modelled from the spec: `InternalIndex` (declared in
`src/utils/internal-index.h`, not among the sources): an entry number held in a
`size_t`, whose largest value is `NotFound`, "distinguishable from any valid
index". -/
structure InternalIndex where
  raw : Nat
  deriving DecidableEq

/-- Modelled from the spec: the reserved value `InternalIndex::NotFound()`. -/
def InternalIndex.NotFound : InternalIndex := ⟨18446744073709551615⟩

/-- Modelled from the spec: `InternalIndex::is_found`, being another value than
`NotFound`. -/
def InternalIndex.is_found (i : InternalIndex) : Bool :=
  decide (i.raw ≠ InternalIndex.NotFound.raw)

/-- Modelled from the spec: `InternalIndex::as_uint32`, the entry number as a
`uint32_t`. -/
def InternalIndex.as_uint32 (i : InternalIndex) : Nat := wrapUint32 i.raw

/-- Modelled from the spec: `InternalIndex::as_int`, the entry number as an
`int`. -/
def InternalIndex.as_int (i : InternalIndex) : Int := wrapInt32 i.raw

/-- Modelled from the spec: `HashTableBase::FirstProbe` (declared in
`hash-table.h`, not among the sources): the hash "reduced modulo capacity", with
the capacity "used as a bit-mask operand": `hash & (size - 1)` on `uint32_t`. -/
def FirstProbe (hash size : Nat) : InternalIndex :=
  ⟨hash &&& wrapUint32 ((size : Int) - 1)⟩

/-- Modelled from the spec: `HashTableBase::NextProbe` (declared in
`hash-table.h`, not among the sources): "the step offset at retry N equals N
itself", reduced with the same mask: `(last + number) & (size - 1)` on
`uint32_t`. -/
def NextProbe (last : InternalIndex) (number size : Nat) : InternalIndex :=
  ⟨wrapUint32 ((last.as_uint32 : Int) + number) &&& wrapUint32 ((size : Int) - 1)⟩

/-- Modelled from the spec: `kElementsStartIndex` of `hash-table.h`: the entry
region starts after the header and the shape's prefix. -/
def kElementsStartIndex {Key : Type} (S : Shape Key) : Int := kPrefixStartIndex + S.kPrefixSize

/-- Modelled from the spec: `kEntryKeyIndex` of `hash-table.h`: the key is the
first slot of an entry. -/
def kEntryKeyIndex : Int := 0

/-- Modelled from the spec: `HashTable::EntryToIndex` of `hash-table.h`: entries
are "fixed-width slots" laid out one after the other, in `int` arithmetic. -/
def EntryToIndex {Key : Type} (S : Shape Key) (entry : InternalIndex) : Int :=
  wrapInt32 (wrapInt32 (entry.as_int * S.kEntrySize) + kElementsStartIndex S)

/-- The array index of the key slot of an entry:
`EntryToIndex(entry) + kEntryKeyIndex`. -/
def KeyIndex {Key : Type} (S : Shape Key) (entry : InternalIndex) : Int :=
  wrapInt32 (EntryToIndex S entry + kEntryKeyIndex)

/-- `HashTable::KeyAt`: `get(EntryToIndex(entry) + kEntryKeyIndex)`. -/
def KeyAt {Key : Type} (S : Shape Key) (t : FixedArray) (entry : InternalIndex) :
    Option Object :=
  t.get (KeyIndex S entry)

/-! ## Lookup -/

/-- How a call ended. -/
inductive Outcome (α : Type)
  | value (a : α)
  | fault
  | outOfFuel
  deriving DecidableEq

/-- What one pass through the body of the `while (true)` loop of
`FindEntry` does: leave the loop, or go round again with a new `entry` and
`count`. -/
inductive LoopStep
  | done (r : Outcome InternalIndex)
  | next (entry : InternalIndex) (count : Nat)
  deriving DecidableEq

/-- The body of the loop of `HashTable::FindEntry`:

    Object element = KeyAt(isolate, entry);
    if (element == undefined) break;
    if (!(Shape::kNeedsHoleCheck && the_hole == element)) {
      if (Shape::IsMatch(key, element)) return entry;
    }
    entry = NextProbe(entry, count++, capacity);

where `break` leads to `return InternalIndex::NotFound()`. -/
def FindEntryBody {Key : Type} (S : Shape Key) (roots : ReadOnlyRoots) (t : FixedArray)
    (key : Key) (capacity : Nat) (entry : InternalIndex) (count : Nat) : LoopStep :=
  match KeyAt S t entry with
  | none => LoopStep.done Outcome.fault
  | some element =>
    if element = roots.undefined_value then LoopStep.done (Outcome.value InternalIndex.NotFound)
    else if !(S.kNeedsHoleCheck && decide (roots.the_hole_value = element)) then
      if S.IsMatch key element then LoopStep.done (Outcome.value entry)
      else LoopStep.next (NextProbe entry count capacity) (wrapUint32 ((count : Int) + 1))
    else LoopStep.next (NextProbe entry count capacity) (wrapUint32 ((count : Int) + 1))

/-- The loop of `HashTable::FindEntry`, run for at most `fuel` passes. -/
def FindEntryLoop {Key : Type} (S : Shape Key) (roots : ReadOnlyRoots) (t : FixedArray)
    (key : Key) (capacity : Nat) : Nat → InternalIndex → Nat → Outcome InternalIndex
  | 0, _, _ => Outcome.outOfFuel
  | fuel + 1, entry, count =>
    match FindEntryBody S roots t key capacity entry count with
    | LoopStep.done r => r
    | LoopStep.next entry1 count1 => FindEntryLoop S roots t key capacity fuel entry1 count1

/-- `HashTable::FindEntry(isolate, roots, key, hash)`:

    uint32_t capacity = Capacity();
    InternalIndex entry = FirstProbe(hash, capacity);
    uint32_t count = 1;

followed by the loop. -/
def FindEntry {Key : Type} (S : Shape Key) (roots : ReadOnlyRoots) (t : FixedArray)
    (key : Key) (hash : Int) (fuel : Nat) : Outcome InternalIndex :=
  match Capacity t with
  | none => Outcome.fault
  | some cap =>
    FindEntryLoop S roots t key (wrapUint32 cap) fuel
      (FirstProbe (wrapUint32 hash) (wrapUint32 cap)) 1

/-- The entries the loop of `FindEntry` passes to `KeyAt`, in order, during
its first `fuel` passes. -/
def FindEntryLoopTrace {Key : Type} (S : Shape Key) (roots : ReadOnlyRoots) (t : FixedArray)
    (key : Key) (capacity : Nat) : Nat → InternalIndex → Nat → List InternalIndex
  | 0, _, _ => []
  | fuel + 1, entry, count =>
    entry :: match FindEntryBody S roots t key capacity entry count with
      | LoopStep.done _ => []
      | LoopStep.next entry1 count1 =>
        FindEntryLoopTrace S roots t key capacity fuel entry1 count1

/-- The entries `FindEntry` examines, in order, during its first `fuel`
passes through the loop. -/
def FindEntryTrace {Key : Type} (S : Shape Key) (roots : ReadOnlyRoots) (t : FixedArray)
    (key : Key) (hash : Int) (fuel : Nat) : List InternalIndex :=
  match Capacity t with
  | none => []
  | some cap =>
    FindEntryLoopTrace S roots t key (wrapUint32 cap) fuel
      (FirstProbe (wrapUint32 hash) (wrapUint32 cap)) 1

/-- The entry variable of `FindEntry` after `N` retries: the first probe
followed by `N` applications of `NextProbe`, the `i`-th with the value `i` of
the post-incremented `uint32_t` counter. -/
def probeSequence (hash capacity : Nat) : Nat → InternalIndex
  | 0 => FirstProbe hash capacity
  | N + 1 => NextProbe (probeSequence hash capacity N) (wrapUint32 ((N : Int) + 1)) capacity

/-! ## The three states of an entry, as the lookup sees them -/

/-- The key slot of `entry` holds the Empty sentinel. -/
def EmptyAt {Key : Type} (S : Shape Key) (roots : ReadOnlyRoots) (t : FixedArray)
    (entry : InternalIndex) : Bool :=
  decide (KeyAt S t entry = some roots.undefined_value)

/-- The test under which the loop body returns the entry holding `element`:
the element is not a Tombstone that the shape has skipped, and it matches the
key. -/
def MatchesKey {Key : Type} (S : Shape Key) (roots : ReadOnlyRoots) (key : Key)
    (element : Object) : Bool :=
  !(S.kNeedsHoleCheck && decide (roots.the_hole_value = element)) && S.IsMatch key element

/-- The key slot of `entry` holds a key that is not Empty, is not a skipped
Tombstone and matches `key`. -/
def HitAt {Key : Type} (S : Shape Key) (roots : ReadOnlyRoots) (t : FixedArray) (key : Key)
    (entry : InternalIndex) : Bool :=
  match KeyAt S t entry with
  | none => false
  | some element => decide (element ≠ roots.undefined_value) && MatchesKey S roots key element

/-- The key slot of `entry` can be read, is not Empty, and is not a match for
`key`: the lookup goes on to the next probe. -/
def PassedAt {Key : Type} (S : Shape Key) (roots : ReadOnlyRoots) (t : FixedArray) (key : Key)
    (entry : InternalIndex) : Bool :=
  match KeyAt S t entry with
  | none => false
  | some element => decide (element ≠ roots.undefined_value) && !MatchesKey S roots key element

/-- The storage of a table of the given capacity: the shape's prefix is not
negative, an entry has at least one slot, the array holds the header, the prefix
and `capacity` entries, and its length is an `int`. -/
def TableLayout {Key : Type} (S : Shape Key) (t : FixedArray) (capacity : Int) : Bool :=
  decide (0 ≤ S.kPrefixSize) && decide (1 ≤ S.kEntrySize) &&
    decide (kElementsStartIndex S + capacity * S.kEntrySize ≤ t.length) &&
    decide (t.length ≤ 2147483647)

/-! ## Sample tables -/

/-- An object-identity shape: keys are objects, matched by equality, with one
slot per entry and no prefix. -/
def identityShape (holeCheck : Bool) : Shape Object :=
  { kNeedsHoleCheck := holeCheck, IsMatch := fun k o => decide (k = o),
    kPrefixSize := 0, kEntrySize := 1 }

/-- Roots with `undefined` at address 0 and the hole at address 1. -/
def sampleRoots : ReadOnlyRoots :=
  { undefined_value := Object.heapObject 0, the_hole_value := Object.heapObject 1,
    distinct := by decide }

/-- A table with the given header fields and key slots. -/
def mkTable (nof nod cap : Int) (slots : List Object) : FixedArray :=
  ⟨Object.smi nof :: Object.smi nod :: Object.smi cap :: slots⟩

/-- The object at heap address 10, used as a key. -/
def keyA : Object := Object.heapObject 10

/-- The object at heap address 11, used as a key. -/
def keyB : Object := Object.heapObject 11

/-- The object at heap address 12, used as a key. -/
def keyC : Object := Object.heapObject 12

/-- A capacity-8 table with two live keys, `keyA` in entry 1 and `keyB` in
entry 2, and every other entry Empty. -/
def sampleTable : FixedArray :=
  mkTable 2 0 8 [sampleRoots.undefined_value, keyA, keyB, sampleRoots.undefined_value,
    sampleRoots.undefined_value, sampleRoots.undefined_value, sampleRoots.undefined_value,
    sampleRoots.undefined_value]

/-- The object at heap address 13, used as a key. -/
def keyD : Object := Object.heapObject 13

/-- A full capacity-4 table: four live keys, no Empty entry and no
Tombstone. -/
def fullTable : FixedArray := mkTable 4 0 4 [keyA, keyB, keyC, keyD]

/-- The table `fullTable` after the key slot of entry 1 is overwritten with the
hole. -/
def fullTableTombstoned : FixedArray :=
  mkTable 4 0 4 [keyA, sampleRoots.the_hole_value, keyC, keyD]

/-- A capacity-4 table whose entry 1 holds the hole and whose other entries
are Empty. -/
def holeTable : FixedArray :=
  mkTable 0 1 4 [sampleRoots.undefined_value, sampleRoots.the_hole_value,
    sampleRoots.undefined_value, sampleRoots.undefined_value]

/-! ## The header invariant and guarded header operations -/

/-- The header invariant of the data model: both counters are non-negative
and together they do not exceed the capacity. -/
def HeaderInvariant (t : FixedArray) : Bool :=
  match Header t with
  | some (e, d, c) => decide (0 ≤ e) && decide (0 ≤ d) && decide (e + d ≤ c)
  | none => false

/-- The operations of the engine that change the counters. -/
inductive HeaderOp
  | elementAdded
  | elementRemoved
  | elementsRemoved (n : Int)

/-- Running a counter operation. -/
def HeaderOp.run (t : FixedArray) : HeaderOp → Option FixedArray
  | HeaderOp.elementAdded => ElementAdded t
  | HeaderOp.elementRemoved => ElementRemoved t
  | HeaderOp.elementsRemoved n => ElementsRemoved t n

/-- What the caller has to ensure before a counter operation: room for one
more entry before `ElementAdded`, at least one element before
`ElementRemoved`, and `0 ≤ n ≤ elementCount` before `ElementsRemoved(n)`. -/
def HeaderOp.guard (t : FixedArray) (op : HeaderOp) : Bool :=
  match Header t with
  | none => false
  | some (e, d, c) =>
    match op with
    | HeaderOp.elementAdded => decide (e + d < c)
    | HeaderOp.elementRemoved => decide (1 ≤ e)
    | HeaderOp.elementsRemoved n => decide (0 ≤ n) && decide (n ≤ e)

/-- Running a sequence of counter operations, each under its guard; `none` when
a guard fails or an operation faults. -/
def runGuarded (t : FixedArray) : List HeaderOp → Option FixedArray
  | [] => some t
  | op :: ops => if op.guard t then (op.run t).bind fun t1 => runGuarded t1 ops else none

/-- The slots other than the two counters are the same in both arrays. -/
def SameOutsideCounters (t t1 : FixedArray) : Prop :=
  t1.length = t.length ∧
  ∀ i : Int, i ≠ kNumberOfElementsIndex → i ≠ kNumberOfDeletedElementsIndex →
    t1.get i = t.get i

/-! ## Liveness of a slot value -/

/-- `BaseShape::IsLive`:
`return k != roots.the_hole_value() && k != roots.undefined_value();`. -/
def BaseShape.IsLive (roots : ReadOnlyRoots) (k : Object) : Bool :=
  decide (k ≠ roots.the_hole_value) && decide (k ≠ roots.undefined_value)

/-- `BaseShape::IsKey`: `return IsLive(roots, key);`. -/
def BaseShape.IsKey (roots : ReadOnlyRoots) (key : Object) : Bool :=
  BaseShape.IsLive roots key

/-- The object at heap address 14, a key that is in none of the sample
tables. -/
def keyE : Object := Object.heapObject 14

/-! ## Membership test of the set variant -/

/-- Modelled from the spec: `Object::IsSmi` (declared in `objects.h`, not among
the sources): the value is "an inline small-integer". -/
def Object.IsSmi : Object → Bool
  | Object.smi _ => true
  | Object.heapObject _ => false

/-- `ObjectHashSet::Has(isolate, key, hash)`:
`return FindEntry(isolate, ReadOnlyRoots(isolate), key, hash).is_found();`. -/
def ObjectHashSet.HasWithHash {Key : Type} (S : Shape Key) (roots : ReadOnlyRoots)
    (t : FixedArray) (key : Key) (hash : Int) (fuel : Nat) : Outcome Bool :=
  match FindEntry S roots t key hash fuel with
  | Outcome.value e => Outcome.value e.is_found
  | Outcome.fault => Outcome.fault
  | Outcome.outOfFuel => Outcome.outOfFuel

/-- `ObjectHashSet::Has(isolate, key)`:

    Object hash = key->GetHash();
    if (!hash.IsSmi()) return false;
    return FindEntry(isolate, ReadOnlyRoots(isolate), key, Smi::ToInt(hash))
        .is_found();

`GetHash` is declared outside the sources and is a parameter. -/
def ObjectHashSet.Has {Key : Type} (S : Shape Key) (roots : ReadOnlyRoots)
    (t : FixedArray) (GetHash : Key → Object) (key : Key) (fuel : Nat) : Outcome Bool :=
  if !(GetHash key).IsSmi then Outcome.value false
  else
    match Smi.ToInt (GetHash key) with
    | none => Outcome.fault
    | some hash =>
      match FindEntry S roots t key hash fuel with
      | Outcome.value e => Outcome.value e.is_found
      | Outcome.fault => Outcome.fault
      | Outcome.outOfFuel => Outcome.outOfFuel

/-- The entries `ObjectHashSet::Has(isolate, key)` examines: none when it
returns before the lookup, those of the lookup otherwise. -/
def ObjectHashSet.HasTrace {Key : Type} (S : Shape Key) (roots : ReadOnlyRoots)
    (t : FixedArray) (GetHash : Key → Object) (key : Key) (fuel : Nat) : List InternalIndex :=
  if !(GetHash key).IsSmi then []
  else
    match Smi.ToInt (GetHash key) with
    | none => []
    | some hash => FindEntryTrace S roots t key hash fuel

/-- A cached-hash function for the sample keys: `keyA` has hash 1, `keyB` has
hash 9, and every other object has no hash (the result is `undefined`). -/
def sampleGetHash (k : Object) : Object :=
  if k = keyA then Smi.FromInt 1
  else if k = keyB then Smi.FromInt 9
  else sampleRoots.undefined_value

/-! ## Reading a key out of an entry -/

/-- Modelled from the spec: the members `IsKey` and `Unwrap` of the `Shape`
template parameter (declared in `hash-table.h`, not among the sources), the
"`isLive/unwrap` rules" of the Shape Policy, next to the members of `Shape`. -/
structure KeyShape (Key : Type) extends Shape Key where
  IsKey : ReadOnlyRoots → Object → Bool
  Unwrap : Object → Object

/-- What a call of `ToKey` leaves behind: the table, the returned `bool` and
the contents of `*out_k`. -/
structure ToKeyResult where
  table : FixedArray
  result : Bool
  out_k : Object
  deriving DecidableEq

/-- `HashTable::ToKey(roots, entry, out_k)`:

    Object k = KeyAt(entry);
    if (!IsKey(roots, k)) return false;
    *out_k = Shape::Unwrap(k);
    return true;

with `out_k` the contents of `*out_k` before the call; `none` when the key slot
cannot be read. -/
def ToKey {Key : Type} (S : KeyShape Key) (roots : ReadOnlyRoots) (t : FixedArray)
    (entry : InternalIndex) (out_k : Object) : Option ToKeyResult :=
  match KeyAt S.toShape t entry with
  | none => none
  | some k =>
    if !S.IsKey roots k then some { table := t, result := false, out_k := out_k }
    else some { table := t, result := true, out_k := S.Unwrap k }

/-- The object-identity shape with the liveness test of `BaseShape` and the
identity as `Unwrap`. -/
def identityKeyShape (holeCheck : Bool) : KeyShape Object :=
  { toShape := identityShape holeCheck, IsKey := BaseShape.IsKey, Unwrap := fun k => k }

/-! ## Key stores and barriers -/

/-- Modelled from the spec: the field layout constants `FixedArray::kHeaderSize`
and `kTaggedSize` (declared in `fixed-array.h` and `globals.h`, not among the
sources): the byte offset of the first element and the width of a slot. -/
structure FieldLayout where
  kHeaderSize : Int
  kTaggedSize : Int

/-- The dynamic type of the object a method is called on, as far as the
`DCHECK`s of the key stores look at it. -/
inductive InstanceType
  | hashTable
  | ephemeronHashTable
  | fixedCOWArray
  deriving DecidableEq

/-- What a store records: the write of a field, a call of the ordinary write
barrier, and a call of the weak-key (ephemeron) barrier, each with the byte
offset and the value, the barriers also with the table as it is when they are
called. -/
inductive HeapEvent
  | store (offset : Int) (value : Object)
  | writeBarrier (host : FixedArray) (offset : Int) (value : Object)
  | ephemeronKeyWriteBarrier (host : FixedArray) (offset : Int) (value : Object)
  deriving DecidableEq

/-- The event is a call of the weak-key barrier. -/
def HeapEvent.isEphemeronKeyWriteBarrier : HeapEvent → Bool
  | HeapEvent.ephemeronKeyWriteBarrier _ _ _ => true
  | _ => false

/-- The event is a call of the ordinary write barrier. -/
def HeapEvent.isWriteBarrier : HeapEvent → Bool
  | HeapEvent.writeBarrier _ _ _ => true
  | _ => false

/-- Modelled from the spec: `RELAXED_WRITE_FIELD(*this, offset, value)` (declared
in `object-macros.h`, not among the sources): the field at byte offset
`kHeaderSize + i * kTaggedSize` is element `i` of the array; `none` when the
offset is not that of an element. -/
def WriteField (L : FieldLayout) (t : FixedArray) (offset : Int) (value : Object) :
    Option FixedArray :=
  if (offset - L.kHeaderSize) % L.kTaggedSize = 0 then
    t.set ((offset - L.kHeaderSize) / L.kTaggedSize) value
  else none

/-- Modelled from the spec: `FixedArray::OffsetOfElementAt(index)`: the byte
offset `kHeaderSize + index * kTaggedSize`, in `int` arithmetic. -/
def OffsetOfElementAt (L : FieldLayout) (index : Int) : Int :=
  wrapInt32 (L.kHeaderSize + wrapInt32 (index * L.kTaggedSize))

/-- `EphemeronHashTable::set_key(index, value)`:

    DCHECK_NE(GetReadOnlyRoots().fixed_cow_array_map(), map());
    DCHECK(IsEphemeronHashTable());
    DCHECK_GE(index, 0);
    DCHECK_LT(index, this->length());
    int offset = kHeaderSize + index * kTaggedSize;
    RELAXED_WRITE_FIELD(*this, offset, value);
    EPHEMERON_KEY_WRITE_BARRIER(*this, offset, value);

returning the table and the events in order; `none` when a `DCHECK` fails. -/
def EphemeronHashTable.set_key (L : FieldLayout) (self : InstanceType) (t : FixedArray)
    (index : Int) (value : Object) : Option (FixedArray × List HeapEvent) :=
  if self = InstanceType.fixedCOWArray then none
  else if self ≠ InstanceType.ephemeronHashTable then none
  else if ¬ (index ≥ 0) then none
  else if ¬ (index < t.length) then none
  else
    let offset : Int := wrapInt32 (L.kHeaderSize + wrapInt32 (index * L.kTaggedSize))
    match WriteField L t offset value with
    | none => none
    | some t1 =>
      some (t1, [HeapEvent.store offset value,
        HeapEvent.ephemeronKeyWriteBarrier t1 offset value])

/-- Modelled from the spec: `FixedArray::set(index, value)` with what it
records (declared in `fixed-array-inl.h`, not among the sources): the store of
element `index` followed by the "ordinary reference barrier: applied to all
value-map/set slot stores and to key stores in non-weak variants". -/
def FixedArray.setRecorded (L : FieldLayout) (t : FixedArray) (index : Int) (value : Object) :
    Option (FixedArray × List HeapEvent) :=
  match t.set index value with
  | none => none
  | some t1 =>
    some (t1, [HeapEvent.store (OffsetOfElementAt L index) value,
      HeapEvent.writeBarrier t1 (OffsetOfElementAt L index) value])

/-- `HashTable::set_key(index, value)`:

    DCHECK(!IsEphemeronHashTable());
    FixedArray::set(index, value);

returning the table and the events in order; `none` when the `DCHECK` fails. -/
def HashTable.set_key (L : FieldLayout) (self : InstanceType) (t : FixedArray)
    (index : Int) (value : Object) : Option (FixedArray × List HeapEvent) :=
  if self = InstanceType.ephemeronHashTable then none
  else FixedArray.setRecorded L t index value

/-- A field layout with a 16-byte header and 8-byte slots. -/
def sampleLayout : FieldLayout := { kHeaderSize := 16, kTaggedSize := 8 }

/-- Being a power of two. -/
def IsPowerOfTwo (x : Int) : Prop := ∃ k : Nat, x = 2 ^ k

/-! ## Integer conversions -/

theorem wrapInt32_of_isInt32 {x : Int} (h : IsInt32 x) : wrapInt32 x = x := by
  unfold wrapInt32
  rw [if_pos h]

/-- The conversion to `int` is reduction modulo `2^32` into `[-2^31, 2^31)`. -/
theorem wrapInt32_eq_mod (x : Int) :
    wrapInt32 x = (x + 2147483648) % 4294967296 - 2147483648 := by
  unfold wrapInt32
  by_cases h : IsInt32 x
  · rw [if_pos h]
    unfold IsInt32 at h
    omega
  · rw [if_neg h]

theorem isInt32_wrapInt32 (x : Int) : IsInt32 (wrapInt32 x) := by
  unfold wrapInt32
  by_cases h : IsInt32 x
  · rw [if_pos h]; exact h
  · rw [if_neg h]
    unfold IsInt32
    omega

theorem wrapUint32_of_nonneg {x : Int} (h0 : 0 ≤ x) (h1 : x < 4294967296) :
    (wrapUint32 x : Int) = x := by
  unfold wrapUint32
  omega

theorem wrapUint32_lt (x : Int) : wrapUint32 x < 4294967296 := by
  unfold wrapUint32
  omega

/-! ## Capacity computation -/

theorem roundUpFrom_spec (value : Nat) :
    ∀ (fuel i : Nat), value ≤ 2 ^ (i + fuel) → (∀ j : Nat, value ≤ 2 ^ j → i ≤ j) →
      ∃ k : Nat, roundUpFrom value fuel (2 ^ i) = 2 ^ k ∧ value ≤ 2 ^ k ∧
        (∀ j : Nat, value ≤ 2 ^ j → k ≤ j) ∧ k ≤ i + fuel := by
  intro fuel
  induction fuel with
  | zero =>
    intro i hle hmin
    exact ⟨i, rfl, by simpa using hle, hmin, le_rfl⟩
  | succ fuel ih =>
    intro i hle hmin
    by_cases hv : value ≤ 2 ^ i
    · exact ⟨i, by simp [roundUpFrom, hv], hv, hmin, by omega⟩
    · have hstep : roundUpFrom value (fuel + 1) (2 ^ i) = roundUpFrom value fuel (2 ^ (i + 1)) := by
        simp [roundUpFrom, hv, pow_succ, Nat.mul_comm]
      have hmin1 : ∀ j : Nat, value ≤ 2 ^ j → i + 1 ≤ j := by
        intro j hj
        by_contra hcon
        have hji : j ≤ i := by omega
        have : 2 ^ j ≤ 2 ^ i := Nat.pow_le_pow_right (by decide) hji
        omega
      obtain ⟨k, hk, hvk, hkm, hkb⟩ := ih (i + 1) (by rw [show i + 1 + fuel = i + (fuel + 1) by omega]; exact hle) hmin1
      exact ⟨k, by rw [hstep, hk], hvk, hkm, by omega⟩

/-- On a value up to `2^30` the model of `RoundUpToPowerOfTwo32` returns the
smallest power of two that is at least the value, and it is at most `2^30`. -/
theorem roundUpToPowerOfTwo32_spec (value : Nat) (h : value ≤ 2 ^ 30) :
    ∃ k : Nat, k ≤ 30 ∧ RoundUpToPowerOfTwo32 value = 2 ^ k ∧ value ≤ 2 ^ k ∧
      (∀ j : Nat, value ≤ 2 ^ j → k ≤ j) := by
  obtain ⟨k, hk, hvk, hkm, _⟩ := roundUpFrom_spec value 32 0
    (le_trans h (Nat.pow_le_pow_right (by decide) (by decide))) (fun j _ => Nat.zero_le j)
  have hk30 : k ≤ 30 := hkm 30 h
  have hpow : 2 ^ k ≤ 2 ^ 30 := Nat.pow_le_pow_right (by decide) hk30
  refine ⟨k, hk30, ?_, hvk, hkm⟩
  unfold RoundUpToPowerOfTwo32
  rw [show (1 : Nat) = 2 ^ 0 by rfl, hk]
  apply Nat.mod_eq_of_lt
  have : (2 : Nat) ^ 30 = 1073741824 := by norm_num
  omega

/-- The value of `ComputeCapacity` where its arithmetic does not overflow. -/
theorem computeCapacity_eq (kMinCapacity n : Int) (h0 : 0 ≤ n) (h1 : n + n / 2 ≤ 2 ^ 30) :
    wrapInt32 (n + (n >>> (1 : Nat))) = n + n / 2 ∧
    ∃ k : Nat, k ≤ 30 ∧ n + n / 2 ≤ 2 ^ k ∧ (∀ j : Nat, n + n / 2 ≤ 2 ^ j → k ≤ j) ∧
      ComputeCapacity kMinCapacity n = max ((2 : Int) ^ k) kMinCapacity := by
  have hshift : n >>> (1 : Nat) = n / 2 := by
    rw [Int.shiftRight_eq_div_pow]; norm_num
  have hp30 : (2 : Int) ^ 30 = 1073741824 := by norm_num
  have hraw0 : 0 ≤ n + n / 2 := by omega
  have hwrap : wrapInt32 (n + (n >>> (1 : Nat))) = n + n / 2 := by
    rw [hshift]
    apply wrapInt32_of_isInt32
    unfold IsInt32
    omega
  refine ⟨hwrap, ?_⟩
  obtain ⟨v, hv⟩ := Int.eq_ofNat_of_zero_le hraw0
  have hvle : v ≤ 2 ^ 30 := by
    have : (v : Int) ≤ 2 ^ 30 := by rw [← hv]; exact h1
    exact_mod_cast this
  obtain ⟨k, hk30, hk, hvk, hkm⟩ := roundUpToPowerOfTwo32_spec v hvle
  have hu : wrapUint32 (n + n / 2) = v := by
    have := wrapUint32_of_nonneg hraw0 (by omega)
    rw [hv] at this ⊢
    exact_mod_cast this
  have hpowN : (2 : Nat) ^ k ≤ 2 ^ 30 := Nat.pow_le_pow_right (by decide) hk30
  have hpowZ : ((2 : Int) ^ k) ≤ 2 ^ 30 := by exact_mod_cast hpowN
  have hpos : (0 : Int) < 2 ^ k := by positivity
  refine ⟨k, hk30, ?_, ?_, ?_⟩
  · rw [hv]; exact_mod_cast hvk
  · intro j hj
    apply hkm
    rw [hv] at hj
    exact_mod_cast hj
  · unfold ComputeCapacity
    simp only [hwrap, hu, hk]
    rw [wrapInt32_of_isInt32]
    · push_cast; rfl
    · unfold IsInt32
      push_cast
      omega

/-- Claim C2.  Where `0 ≤ n` and `n + ⌊n/2⌋ ≤ 2^30`, the 32-bit computation
`raw = n + (n >> 1)` is exact and `ComputeCapacity n` is the larger of
`kMinCapacity` and the smallest power of two that is at least `raw`; for `n = 10`
the raw value is 15 and, the minimum being at most 16, the result is 16. -/
theorem computeCapacity_smallest_power (kMinCapacity n : Int)
    (h0 : 0 ≤ n) (h1 : n + n / 2 ≤ 2 ^ 30) :
    wrapInt32 (n + (n >>> (1 : Nat))) = n + n / 2 ∧
    (∃ p : Int, IsPowerOfTwo p ∧ n + n / 2 ≤ p ∧
      (∀ q : Int, IsPowerOfTwo q → n + n / 2 ≤ q → p ≤ q) ∧
      ComputeCapacity kMinCapacity n = max kMinCapacity p) ∧
    wrapInt32 ((10 : Int) + ((10 : Int) >>> (1 : Nat))) = 15 ∧
    (kMinCapacity ≤ 16 → ComputeCapacity kMinCapacity 10 = 16) := by
  obtain ⟨hw, k, _, hle, hmin, hcc⟩ := computeCapacity_eq kMinCapacity n h0 h1
  refine ⟨hw, ⟨2 ^ k, ⟨k, rfl⟩, hle, ?_, ?_⟩, by decide, ?_⟩
  · rintro q ⟨j, rfl⟩ hq
    have := hmin j hq
    exact_mod_cast Nat.pow_le_pow_right (by decide) this
  · rw [hcc, max_comm]
  · intro hk
    have h16 : ComputeCapacity kMinCapacity 10 = max 16 kMinCapacity := by
      unfold ComputeCapacity
      have : wrapInt32 (RoundUpToPowerOfTwo32 (wrapUint32
          (wrapInt32 ((10 : Int) + ((10 : Int) >>> (1 : Nat)))))) = 16 := by decide
      simp only [this]
    rw [h16]
    exact max_eq_left hk

theorem computeCapacity_smallest_power_witness :
    ((0 : Int) ≤ 10 ∧ (10 : Int) + 10 / 2 ≤ 2 ^ 30) ∧
    wrapInt32 ((10 : Int) + ((10 : Int) >>> (1 : Nat))) = 10 + 10 / 2 ∧
    (∃ p : Int, IsPowerOfTwo p ∧ 10 + 10 / 2 ≤ p ∧
      (∀ q : Int, IsPowerOfTwo q → 10 + 10 / 2 ≤ q → p ≤ q) ∧
      ComputeCapacity 4 10 = max 4 p) ∧
    ComputeCapacity 4 10 = 16 :=
  ⟨by decide, (computeCapacity_smallest_power 4 10 (by decide) (by decide)).1,
    (computeCapacity_smallest_power 4 10 (by decide) (by decide)).2.1,
    (computeCapacity_smallest_power 4 10 (by decide) (by decide)).2.2.2 (by decide)⟩

/-- Claim C1, as amended.  Where `0 ≤ n` and `n + ⌊n/2⌋ ≤ 2^30`, and the minimum
capacity is a power of two, `ComputeCapacity n` is a power of two, is at least
`kMinCapacity` and is at least `n + ⌊n/2⌋`. -/
theorem computeCapacity_bounds (kMinCapacity n : Int) (hmin : IsPowerOfTwo kMinCapacity)
    (h0 : 0 ≤ n) (h1 : n + n / 2 ≤ 2 ^ 30) :
    IsPowerOfTwo (ComputeCapacity kMinCapacity n) ∧
    kMinCapacity ≤ ComputeCapacity kMinCapacity n ∧
    n + n / 2 ≤ ComputeCapacity kMinCapacity n := by
  obtain ⟨_, k, _, hle, _, hcc⟩ := computeCapacity_eq kMinCapacity n h0 h1
  rw [hcc]
  refine ⟨?_, le_max_right _ _, le_trans hle (le_max_left _ _)⟩
  rcases le_total ((2 : Int) ^ k) kMinCapacity with h | h
  · rw [max_eq_right h]; exact hmin
  · rw [max_eq_left h]; exact ⟨k, rfl⟩

theorem computeCapacity_bounds_witness :
    IsPowerOfTwo (ComputeCapacity 4 10) ∧ 4 ≤ ComputeCapacity 4 10 ∧
    (10 : Int) + 10 / 2 ≤ ComputeCapacity 4 10 :=
  computeCapacity_bounds 4 10 ⟨2, by decide⟩ (by decide) (by decide)

/-- Claim C1 fails as stated: `ComputeCapacity 11` is 16, below `11 + 11/2`
rounded up, which is 17; and `ComputeCapacity (2^30)` is the minimum capacity 4,
because the rounded value `2^31` does not fit an `int`. -/
theorem computeCapacity_bounds_counterexample :
    (ComputeCapacity 4 11 = 16 ∧ ¬ ((3 * 11 + 1) / 2 ≤ ComputeCapacity 4 11)) ∧
    (ComputeCapacity 4 1073741824 = 4 ∧
      ¬ ((1073741824 : Int) + 1073741824 / 2 ≤ ComputeCapacity 4 1073741824)) := by
  decide

/-! ## Header counters -/

theorem header_eq_some {t : FixedArray} {e d c : Int} :
    Header t = some (e, d, c) ↔
      ∃ rest, t = ⟨Object.smi e :: Object.smi d :: Object.smi c :: rest⟩ ∧
        IsInt32 e ∧ IsInt32 d ∧ IsInt32 c := by
  constructor
  · intro h
    rcases t with ⟨l⟩
    rcases l with _ | ⟨a, _ | ⟨b, _ | ⟨c1, rest⟩⟩⟩
    · simp [Header, NumberOfElements, loadSmi, FixedArray.get, kNumberOfElementsIndex] at h
    · cases a <;>
        simp [Header, NumberOfElements, NumberOfDeletedElements, loadSmi, FixedArray.get,
          kNumberOfElementsIndex, kNumberOfDeletedElementsIndex, Smi.ToInt] at h
    · cases a <;> cases b <;>
        simp [Header, NumberOfElements, NumberOfDeletedElements, Capacity, loadSmi,
          FixedArray.get, kNumberOfElementsIndex, kNumberOfDeletedElementsIndex,
          kCapacityIndex, Smi.ToInt] at h
    · cases a <;> cases b <;> cases c1 <;>
        simp [Header, NumberOfElements, NumberOfDeletedElements, Capacity, loadSmi,
          FixedArray.get, kNumberOfElementsIndex, kNumberOfDeletedElementsIndex,
          kCapacityIndex, Smi.ToInt] at h
      rename_i x y z
      by_cases hx : IsInt32 x <;> by_cases hy : IsInt32 y <;> by_cases hz : IsInt32 z <;>
        simp [hx, hy, hz] at h
      obtain ⟨rfl, rfl, rfl⟩ := h
      exact ⟨rest, rfl, hx, hy, hz⟩
  · rintro ⟨rest, rfl, he, hd, hc⟩
    simp [Header, NumberOfElements, NumberOfDeletedElements, Capacity, loadSmi,
      FixedArray.get, kNumberOfElementsIndex, kNumberOfDeletedElementsIndex,
      kCapacityIndex, Smi.ToInt, he, hd, hc]

theorem sameOutsideCounters_cons (a b a1 b1 : Object) (rest : List Object) :
    SameOutsideCounters ⟨a :: b :: rest⟩ ⟨a1 :: b1 :: rest⟩ := by
  refine ⟨by simp [FixedArray.length], ?_⟩
  intro i h0 h1
  simp only [kNumberOfElementsIndex, kNumberOfDeletedElementsIndex] at h0 h1
  unfold FixedArray.get
  by_cases hi : 0 ≤ i
  · obtain ⟨m, hm⟩ : ∃ m : Nat, i.toNat = m + 2 := ⟨i.toNat - 2, by omega⟩
    simp [hi, hm]
  · simp [hi]

theorem elementAdded_cons (e d c : Int) (rest : List Object) (he : IsInt32 e) :
    ElementAdded ⟨Object.smi e :: Object.smi d :: Object.smi c :: rest⟩ =
      some ⟨Object.smi (wrapInt32 (e + 1)) :: Object.smi d :: Object.smi c :: rest⟩ := by
  simp [ElementAdded, NumberOfElements, SetNumberOfElements, loadSmi, FixedArray.get,
    FixedArray.set, FixedArray.length, kNumberOfElementsIndex, Smi.ToInt, Smi.FromInt, he]
  omega

theorem elementsRemoved_cons (e d c n : Int) (rest : List Object) (he : IsInt32 e)
    (hd : IsInt32 d) :
    ElementsRemoved ⟨Object.smi e :: Object.smi d :: Object.smi c :: rest⟩ n =
      some ⟨Object.smi (wrapInt32 (e - n)) :: Object.smi (wrapInt32 (d + n)) ::
        Object.smi c :: rest⟩ := by
  have h1 : (0 : Int) < (rest.length : Int) + 1 + 1 + 1 := by omega
  have h2 : (1 : Int) < (rest.length : Int) + 1 + 1 + 1 := by omega
  simp [ElementsRemoved, NumberOfElements, NumberOfDeletedElements, SetNumberOfElements,
    SetNumberOfDeletedElements, loadSmi, FixedArray.get, FixedArray.set, FixedArray.length,
    kNumberOfElementsIndex, kNumberOfDeletedElementsIndex, Smi.ToInt, Smi.FromInt, he, hd,
    h1, h2]

/-- Claim C8.  On a table with header `(e, d, c)`: `ElementAdded` gives header
`(e + 1, d, c)`, `ElementsRemoved(n)` gives `(e - n, d + n, c)` with the same sum
of the two counters, `ElementRemoved` is `ElementsRemoved(1)`, and every slot
other than the two counters (the capacity and all entry slots) is unchanged.
The new counter values are taken to be representable as `int`. -/
theorem counter_effects (t : FixedArray) (e d c : Int) (h : Header t = some (e, d, c)) :
    (e + 1 ≤ 2147483647 →
      ∃ t1, ElementAdded t = some t1 ∧ Header t1 = some (e + 1, d, c) ∧
        SameOutsideCounters t t1 ∧ NumberOfDeletedElements t1 = NumberOfDeletedElements t) ∧
    (∀ n : Int, IsInt32 (e - n) → IsInt32 (d + n) →
      ∃ t2, ElementsRemoved t n = some t2 ∧ Header t2 = some (e - n, d + n, c) ∧
        SameOutsideCounters t t2 ∧
        ∀ e2 d2 c2 : Int, Header t2 = some (e2, d2, c2) → e2 + d2 = e + d ∧ c2 = c) ∧
    (∀ s : FixedArray, ElementRemoved s = ElementsRemoved s 1) := by
  obtain ⟨rest, rfl, he, hd, hc⟩ := header_eq_some.mp h
  refine ⟨?_, ?_, fun s => rfl⟩
  · intro h1
    have hr : IsInt32 (e + 1) := by unfold IsInt32 at he ⊢; omega
    refine ⟨_, elementAdded_cons e d c rest he, ?_, sameOutsideCounters_cons _ _ _ _ _, ?_⟩
    · rw [wrapInt32_of_isInt32 hr]
      exact header_eq_some.mpr ⟨rest, rfl, hr, hd, hc⟩
    · simp [NumberOfDeletedElements, loadSmi, FixedArray.get, kNumberOfDeletedElementsIndex]
  · intro n h1 h2
    refine ⟨_, elementsRemoved_cons e d c n rest he hd, ?_, sameOutsideCounters_cons _ _ _ _ _, ?_⟩
    · rw [wrapInt32_of_isInt32 h1, wrapInt32_of_isInt32 h2]
      exact header_eq_some.mpr ⟨rest, rfl, h1, h2, hc⟩
    · intro e2 d2 c2 h3
      rw [wrapInt32_of_isInt32 h1, wrapInt32_of_isInt32 h2,
        header_eq_some.mpr ⟨rest, rfl, h1, h2, hc⟩] at h3
      simp only [Option.some.injEq, Prod.mk.injEq] at h3
      omega

theorem counter_effects_witness :
    Header sampleTable = some (2, 0, 8) ∧
    (∃ t1, ElementAdded sampleTable = some t1 ∧ Header t1 = some (2 + 1, 0, 8) ∧
      SameOutsideCounters sampleTable t1 ∧
      NumberOfDeletedElements t1 = NumberOfDeletedElements sampleTable) ∧
    (∃ t2, ElementsRemoved sampleTable 2 = some t2 ∧ Header t2 = some (2 - 2, 0 + 2, 8) ∧
      SameOutsideCounters sampleTable t2 ∧
      ∀ e2 d2 c2 : Int, Header t2 = some (e2, d2, c2) → e2 + d2 = 2 + 0 ∧ c2 = 8) :=
  ⟨by decide, (counter_effects sampleTable 2 0 8 (by decide)).1 (by decide),
    (counter_effects sampleTable 2 0 8 (by decide)).2.1 2 (by decide) (by decide)⟩

theorem headerInvariant_iff {t : FixedArray} :
    HeaderInvariant t = true ↔
      ∃ e d c : Int, Header t = some (e, d, c) ∧ 0 ≤ e ∧ 0 ≤ d ∧ e + d ≤ c := by
  unfold HeaderInvariant
  constructor
  · intro h
    split at h
    · rename_i e d c heq
      simp only [Bool.and_eq_true, decide_eq_true_eq] at h
      exact ⟨e, d, c, heq, h.1.1, h.1.2, h.2⟩
    · exact absurd h (by decide)
  · rintro ⟨e, d, c, heq, h1, h2, h3⟩
    simp [heq, h1, h2, h3]

/-- A guarded counter operation runs without fault and keeps the header
invariant. -/
theorem headerInvariant_step (t : FixedArray) (op : HeaderOp)
    (hinv : HeaderInvariant t = true) (hg : op.guard t = true) :
    ∃ t1, op.run t = some t1 ∧ HeaderInvariant t1 = true := by
  obtain ⟨e, d, c, hh, h1, h2, h3⟩ := headerInvariant_iff.mp hinv
  obtain ⟨rest, rfl, he, hd, hc⟩ := header_eq_some.mp hh
  unfold HeaderOp.guard at hg
  rw [hh] at hg
  unfold IsInt32 at he hd hc
  cases op with
  | elementAdded =>
    simp only [decide_eq_true_eq] at hg
    have hr : IsInt32 (e + 1) := by unfold IsInt32; omega
    refine ⟨_, elementAdded_cons e d c rest he, ?_⟩
    rw [wrapInt32_of_isInt32 hr]
    exact headerInvariant_iff.mpr ⟨e + 1, d, c, header_eq_some.mpr ⟨rest, rfl, hr, hd, hc⟩,
      by omega, h2, by omega⟩
  | elementRemoved =>
    simp only [decide_eq_true_eq] at hg
    have hr1 : IsInt32 (e - 1) := by unfold IsInt32; omega
    have hr2 : IsInt32 (d + 1) := by unfold IsInt32; omega
    refine ⟨_, elementsRemoved_cons e d c 1 rest he hd, ?_⟩
    rw [wrapInt32_of_isInt32 hr1, wrapInt32_of_isInt32 hr2]
    exact headerInvariant_iff.mpr ⟨e - 1, d + 1, c,
      header_eq_some.mpr ⟨rest, rfl, hr1, hr2, hc⟩, by omega, by omega, by omega⟩
  | elementsRemoved n =>
    simp only [Bool.and_eq_true, decide_eq_true_eq] at hg
    have hr1 : IsInt32 (e - n) := by unfold IsInt32; omega
    have hr2 : IsInt32 (d + n) := by unfold IsInt32; omega
    refine ⟨_, elementsRemoved_cons e d c n rest he hd, ?_⟩
    rw [wrapInt32_of_isInt32 hr1, wrapInt32_of_isInt32 hr2]
    exact headerInvariant_iff.mpr ⟨e - n, d + n, c,
      header_eq_some.mpr ⟨rest, rfl, hr1, hr2, hc⟩, by omega, by omega, by omega⟩

theorem headerInvariant_runGuarded (ops : List HeaderOp) :
    ∀ t t1 : FixedArray, HeaderInvariant t = true → runGuarded t ops = some t1 →
      HeaderInvariant t1 = true := by
  induction ops with
  | nil =>
    intro t t1 hinv hrun
    simp only [runGuarded, Option.some.injEq] at hrun
    rw [← hrun]; exact hinv
  | cons op ops ih =>
    intro t t1 hinv hrun
    unfold runGuarded at hrun
    by_cases hg : op.guard t = true
    · obtain ⟨t2, hstep, hinv2⟩ := headerInvariant_step t op hinv hg
      simp only [hg, if_true, hstep, Option.some_bind] at hrun
      exact ih t2 t1 hinv2 hrun
    · simp [hg] at hrun

/-- Claim C9.  From a table whose header satisfies `0 ≤ elementCount`,
`0 ≤ deletedCount` and `elementCount + deletedCount ≤ capacity`, each counter
operation run under its guard completes and leaves the invariant true, and so
does every sequence of guarded counter operations. -/
theorem header_invariant_preserved (t : FixedArray) (hinv : HeaderInvariant t = true) :
    (∀ op : HeaderOp, op.guard t = true →
      ∃ t1, op.run t = some t1 ∧ HeaderInvariant t1 = true) ∧
    (∀ (ops : List HeaderOp) (t1 : FixedArray), runGuarded t ops = some t1 →
      HeaderInvariant t1 = true) :=
  ⟨fun op hg => headerInvariant_step t op hinv hg,
    fun ops t1 hrun => headerInvariant_runGuarded ops t t1 hinv hrun⟩

theorem header_invariant_preserved_witness :
    HeaderInvariant sampleTable = true ∧
    (∃ t1, HeaderOp.run sampleTable HeaderOp.elementAdded = some t1 ∧
      HeaderInvariant t1 = true) ∧
    HeaderInvariant (mkTable 1 3 8 (sampleTable.elements.drop 3)) = true :=
  ⟨by decide,
    (header_invariant_preserved sampleTable (by decide)).1 HeaderOp.elementAdded (by decide),
    (header_invariant_preserved sampleTable (by decide)).2
      [HeaderOp.elementAdded, HeaderOp.elementsRemoved 2, HeaderOp.elementAdded,
        HeaderOp.elementRemoved] _ (by decide)⟩

/-! ## Setting the capacity -/

/-- Claim C10, as amended.  The assertions of `SetCapacity(c)` hold exactly when
`0 < c` and `c ≤ kMaxCapacity`; when they hold, on a table that has its header
slots, the call completes, `Capacity()` afterwards is `c`, and both counters
read as before. -/
theorem setCapacity_accepted (kMaxCapacity : Int) (t : FixedArray) (c : Int)
    (hc : IsInt32 c) (hlen : kCapacityIndex < t.length) :
    (SetCapacityChecks kMaxCapacity c = true ↔ 0 < c ∧ c ≤ kMaxCapacity) ∧
    ((SetCapacity kMaxCapacity t c).isSome = true ↔ SetCapacityChecks kMaxCapacity c = true) ∧
    (∀ t1, SetCapacity kMaxCapacity t c = some t1 →
      Capacity t1 = some c ∧ NumberOfElements t1 = NumberOfElements t ∧
        NumberOfDeletedElements t1 = NumberOfDeletedElements t) := by
  have hchk : SetCapacityChecks kMaxCapacity c = true ↔ 0 < c ∧ c ≤ kMaxCapacity := by
    simp [SetCapacityChecks]
  rcases t with ⟨l⟩
  rcases l with _ | ⟨a, _ | ⟨b, _ | ⟨c1, rest⟩⟩⟩ <;>
    simp [FixedArray.length, kCapacityIndex] at hlen
  have hset : FixedArray.set ⟨a :: b :: c1 :: rest⟩ kCapacityIndex (Smi.FromInt c) =
      some ⟨a :: b :: Object.smi c :: rest⟩ := by
    have h2 : (2 : Int) < (rest.length : Int) + 1 + 1 + 1 := by omega
    simp [FixedArray.set, FixedArray.length, kCapacityIndex, Smi.FromInt, h2]
  refine ⟨hchk, ?_, ?_⟩
  · unfold SetCapacity
    by_cases h : SetCapacityChecks kMaxCapacity c = true
    · simp [h, hset]
    · simp [h]
  · intro t1 h1
    unfold SetCapacity at h1
    by_cases h : SetCapacityChecks kMaxCapacity c = true
    · simp only [h, if_true, hset, Option.some.injEq] at h1
      subst h1
      simp [Capacity, NumberOfElements, NumberOfDeletedElements, loadSmi, FixedArray.get,
        kCapacityIndex, kNumberOfElementsIndex, kNumberOfDeletedElementsIndex, Smi.ToInt, hc]
    · simp [h] at h1

theorem setCapacity_accepted_witness :
    (SetCapacityChecks 1024 16 = true ↔ (0 : Int) < 16 ∧ (16 : Int) ≤ 1024) ∧
    ((SetCapacity 1024 sampleTable 16).isSome = true ↔ SetCapacityChecks 1024 16 = true) ∧
    (∀ t1, SetCapacity 1024 sampleTable 16 = some t1 →
      Capacity t1 = some 16 ∧ NumberOfElements t1 = NumberOfElements sampleTable ∧
        NumberOfDeletedElements t1 = NumberOfDeletedElements sampleTable) :=
  setCapacity_accepted 1024 sampleTable 16 (by decide) (by decide)

/-- Claim C10 fails as stated: with `kMaxCapacity = 1024`, the capacity 1024
is not below the maximum, yet both assertions of `SetCapacity(1024)` hold and
the capacity is stored. -/
theorem setCapacity_accepted_counterexample :
    SetCapacityChecks 1024 1024 = true ∧ ¬ ((1024 : Int) < 1024) ∧
    (SetCapacity 1024 sampleTable 1024).bind Capacity = some 1024 := by
  decide

/-! ## The probe sequence -/

theorem wrapUint32_natCast (a : Nat) : wrapUint32 (a : Int) = a % 4294967296 := by
  unfold wrapUint32
  omega

theorem mask_pow_two (k : Nat) (hk : k ≤ 32) :
    wrapUint32 (((2 ^ k : Nat) : Int) - 1) = 2 ^ k - 1 := by
  have h1 : 0 < 2 ^ k := Nat.pow_pos (by decide)
  have h2 : 2 ^ k ≤ 2 ^ 32 := Nat.pow_le_pow_right (by decide) hk
  have h3 : (2 : Nat) ^ 32 = 4294967296 := by norm_num
  unfold wrapUint32
  omega

theorem two_pow_dvd_wrap (k : Nat) (hk : k ≤ 32) : 2 ^ k ∣ 4294967296 := by
  have : (4294967296 : Nat) = 2 ^ 32 := by norm_num
  rw [this]
  exact Nat.pow_dvd_pow 2 hk

theorem triangle_succ (N : Nat) : (N + 1) * (N + 1 + 1) / 2 = N * (N + 1) / 2 + (N + 1) := by
  have : (N + 1) * (N + 1 + 1) = N * (N + 1) + 2 * (N + 1) := by ring
  rw [this, Nat.add_mul_div_left _ _ (by decide : 0 < 2)]

theorem two_mul_triangle (N : Nat) : 2 * (N * (N + 1) / 2) = N * (N + 1) :=
  Nat.mul_div_cancel' (Nat.even_mul_succ_self N).two_dvd

/-- The closed form of the probe sequence for a power-of-two capacity. -/
theorem probeSequence_raw (hash k : Nat) (hk : k ≤ 32) (N : Nat) :
    (probeSequence hash (2 ^ k) N).raw = (hash + N * (N + 1) / 2) % 2 ^ k := by
  induction N with
  | zero =>
    simp only [probeSequence, FirstProbe, mask_pow_two k hk]
    rw [Nat.and_pow_two_sub_one_eq_mod]
    simp
  | succ N ih =>
    simp only [probeSequence, NextProbe, InternalIndex.as_uint32, mask_pow_two k hk]
    rw [Nat.and_pow_two_sub_one_eq_mod, ih]
    have e1 : ((N : Int) + 1) = ((N + 1 : Nat) : Int) := by push_cast; rfl
    rw [e1, wrapUint32_natCast, wrapUint32_natCast]
    have e2 : (((((hash + N * (N + 1) / 2) % 2 ^ k) % 4294967296 : Nat) : Int) +
        (((N + 1) % 4294967296 : Nat) : Int)) =
        (((((hash + N * (N + 1) / 2) % 2 ^ k) % 4294967296 + (N + 1) % 4294967296 : Nat)) : Int) := by
      push_cast; rfl
    rw [e2, wrapUint32_natCast, Nat.mod_mod_of_dvd _ (two_pow_dvd_wrap k hk), triangle_succ]
    have hd := two_pow_dvd_wrap k hk
    rw [Nat.add_mod, Nat.mod_mod_of_dvd _ hd, Nat.mod_mod_of_dvd _ hd, Nat.mod_mod,
      ← Nat.add_mod, Nat.add_assoc]

theorem probeSequence_lt (hash k : Nat) (hk : k ≤ 32) (N : Nat) :
    (probeSequence hash (2 ^ k) N).raw < 2 ^ k := by
  rw [probeSequence_raw hash k hk]
  exact Nat.mod_lt _ (Nat.pow_pos (by decide))

/-- Two triangular numbers with indices below `2^k` that agree modulo `2^k`
have the same index. -/
theorem triangle_injective (k i j : Nat) (hij : i ≤ j) (hj : j < 2 ^ k)
    (h : (i * (i + 1) / 2) % 2 ^ k = (j * (j + 1) / 2) % 2 ^ k) : i = j := by
  have hle : i * (i + 1) / 2 ≤ j * (j + 1) / 2 :=
    Nat.div_le_div_right (Nat.mul_le_mul hij (by omega))
  have hdvd : 2 ^ k ∣ j * (j + 1) / 2 - i * (i + 1) / 2 :=
    (Nat.modEq_iff_dvd' hle).mp h
  have hprod : 2 * (j * (j + 1) / 2 - i * (i + 1) / 2) = (j - i) * (i + j + 1) := by
    rw [Nat.mul_sub, two_mul_triangle, two_mul_triangle]
    obtain ⟨d, rfl⟩ : ∃ d, j = i + d := ⟨j - i, by omega⟩
    have : i + d - i = d := by omega
    rw [this]
    have : (i + d) * (i + d + 1) = i * (i + 1) + d * (i + (i + d) + 1) := by ring
    rw [this]
    omega
  have hdvd2 : 2 ^ (k + 1) ∣ (j - i) * (i + j + 1) := by
    rw [← hprod, pow_succ, Nat.mul_comm]
    exact Nat.mul_dvd_mul_left 2 hdvd
  have hpow : (2 : Nat) ^ (k + 1) = 2 * 2 ^ k := by rw [pow_succ, Nat.mul_comm]
  rcases Nat.even_or_odd (j - i) with he | ho
  · have hodd : Odd (i + j + 1) := by
      obtain ⟨m, hm⟩ := he
      exact ⟨i + m, by omega⟩
    have hcop : Nat.Coprime (2 ^ (k + 1)) (i + j + 1) :=
      Nat.Coprime.pow_left _ (Nat.coprime_two_left.mpr hodd)
    have hd : 2 ^ (k + 1) ∣ j - i := hcop.dvd_of_dvd_mul_right hdvd2
    have := Nat.eq_zero_of_dvd_of_lt hd (by omega)
    omega
  · have hcop : Nat.Coprime (2 ^ (k + 1)) (j - i) :=
      Nat.Coprime.pow_left _ (Nat.coprime_two_left.mpr ho)
    have hd : 2 ^ (k + 1) ∣ i + j + 1 := hcop.dvd_of_dvd_mul_left hdvd2
    have := Nat.eq_zero_of_dvd_of_lt hd (by omega)
    omega

theorem probeSequence_injective (hash k : Nat) (hk : k ≤ 32) (i j : Nat)
    (hi : i < 2 ^ k) (hj : j < 2 ^ k)
    (h : probeSequence hash (2 ^ k) i = probeSequence hash (2 ^ k) j) : i = j := by
  have hraw := congrArg InternalIndex.raw h
  rw [probeSequence_raw hash k hk, probeSequence_raw hash k hk] at hraw
  have hmod : (i * (i + 1) / 2) % 2 ^ k = (j * (j + 1) / 2) % 2 ^ k :=
    Nat.ModEq.add_left_cancel' hash hraw
  rcases Nat.le_total i j with hij | hij
  · exact triangle_injective k i j hij hj hmod
  · exact (triangle_injective k j i hij hi hmod.symm).symm

theorem probeSequence_surjective (hash k : Nat) (hk : k ≤ 32) (r : Nat) (hr : r < 2 ^ k) :
    ∃ i, i < 2 ^ k ∧ (probeSequence hash (2 ^ k) i).raw = r := by
  let f : Fin (2 ^ k) → Fin (2 ^ k) := fun i =>
    ⟨(probeSequence hash (2 ^ k) i.val).raw, probeSequence_lt hash k hk i.val⟩
  have hinj : Function.Injective f := by
    intro a b hab
    have hraw : (probeSequence hash (2 ^ k) a.val).raw = (probeSequence hash (2 ^ k) b.val).raw :=
      congrArg Fin.val hab
    have hp : probeSequence hash (2 ^ k) a.val = probeSequence hash (2 ^ k) b.val := by
      cases hpa : probeSequence hash (2 ^ k) a.val
      cases hpb : probeSequence hash (2 ^ k) b.val
      rw [hpa, hpb] at hraw
      simp only at hraw
      rw [hraw]
    exact Fin.ext (probeSequence_injective hash k hk a.val b.val a.isLt b.isLt hp)
  obtain ⟨i, hi⟩ := (Finite.injective_iff_surjective.mp hinj) ⟨r, hr⟩
  exact ⟨i.val, i.isLt, congrArg Fin.val hi⟩


/-! ## One pass through the loop -/

theorem emptyAt_iff {Key : Type} (S : Shape Key) (roots : ReadOnlyRoots) (t : FixedArray)
    (entry : InternalIndex) :
    EmptyAt S roots t entry = true ↔ KeyAt S t entry = some roots.undefined_value := by
  unfold EmptyAt
  exact decide_eq_true_iff

theorem hitAt_iff {Key : Type} (S : Shape Key) (roots : ReadOnlyRoots) (t : FixedArray)
    (key : Key) (entry : InternalIndex) :
    HitAt S roots t key entry = true ↔
      ∃ element, KeyAt S t entry = some element ∧ element ≠ roots.undefined_value ∧
        MatchesKey S roots key element = true := by
  unfold HitAt
  generalize KeyAt S t entry = o
  cases o with
  | none => simp
  | some element => simp

theorem passedAt_iff {Key : Type} (S : Shape Key) (roots : ReadOnlyRoots) (t : FixedArray)
    (key : Key) (entry : InternalIndex) :
    PassedAt S roots t key entry = true ↔
      ∃ element, KeyAt S t entry = some element ∧ element ≠ roots.undefined_value ∧
        MatchesKey S roots key element = false := by
  unfold PassedAt
  generalize KeyAt S t entry = o
  cases o with
  | none => simp
  | some element => simp

theorem slot_cases {Key : Type} (S : Shape Key) (roots : ReadOnlyRoots) (t : FixedArray)
    (key : Key) (entry : InternalIndex) :
    KeyAt S t entry = none ∨ EmptyAt S roots t entry = true ∨
      HitAt S roots t key entry = true ∨ PassedAt S roots t key entry = true := by
  rw [emptyAt_iff, hitAt_iff, passedAt_iff]
  generalize KeyAt S t entry = o
  cases o with
  | none => exact Or.inl rfl
  | some element =>
    right
    by_cases he : element = roots.undefined_value
    · left; rw [he]
    · right
      cases hm : MatchesKey S roots key element
      · exact Or.inr ⟨element, rfl, he, hm⟩
      · exact Or.inl ⟨element, rfl, he, hm⟩

/-- The body of the loop on a stored element. -/
theorem body_some {Key : Type} (S : Shape Key) (roots : ReadOnlyRoots) (t : FixedArray)
    (key : Key) (capacity : Nat) (entry : InternalIndex) (count : Nat) (element : Object)
    (h : KeyAt S t entry = some element) (hne : element ≠ roots.undefined_value) :
    FindEntryBody S roots t key capacity entry count =
      if MatchesKey S roots key element = true then LoopStep.done (Outcome.value entry)
      else LoopStep.next (NextProbe entry count capacity) (wrapUint32 ((count : Int) + 1)) := by
  unfold FindEntryBody
  rw [h]
  unfold MatchesKey
  generalize NextProbe entry count capacity = e1
  generalize wrapUint32 ((count : Int) + 1) = c1
  cases h1 : (S.kNeedsHoleCheck && decide (roots.the_hole_value = element)) <;>
    cases h2 : S.IsMatch key element <;> simp [hne, h1, h2]

theorem body_fault {Key : Type} (S : Shape Key) (roots : ReadOnlyRoots) (t : FixedArray)
    (key : Key) (capacity : Nat) (entry : InternalIndex) (count : Nat)
    (h : KeyAt S t entry = none) :
    FindEntryBody S roots t key capacity entry count = LoopStep.done Outcome.fault := by
  unfold FindEntryBody
  rw [h]

theorem body_empty {Key : Type} (S : Shape Key) (roots : ReadOnlyRoots) (t : FixedArray)
    (key : Key) (capacity : Nat) (entry : InternalIndex) (count : Nat)
    (h : EmptyAt S roots t entry = true) :
    FindEntryBody S roots t key capacity entry count =
      LoopStep.done (Outcome.value InternalIndex.NotFound) := by
  rw [emptyAt_iff] at h
  unfold FindEntryBody
  rw [h]
  generalize NextProbe entry count capacity = e1
  generalize wrapUint32 ((count : Int) + 1) = c1
  simp

theorem body_hit {Key : Type} (S : Shape Key) (roots : ReadOnlyRoots) (t : FixedArray)
    (key : Key) (capacity : Nat) (entry : InternalIndex) (count : Nat)
    (h : HitAt S roots t key entry = true) :
    FindEntryBody S roots t key capacity entry count =
      LoopStep.done (Outcome.value entry) := by
  obtain ⟨element, hk, hne, hm⟩ := (hitAt_iff S roots t key entry).mp h
  rw [body_some S roots t key capacity entry count element hk hne, if_pos hm]

theorem body_passed {Key : Type} (S : Shape Key) (roots : ReadOnlyRoots) (t : FixedArray)
    (key : Key) (capacity : Nat) (entry : InternalIndex) (count : Nat)
    (h : PassedAt S roots t key entry = true) :
    FindEntryBody S roots t key capacity entry count =
      LoopStep.next (NextProbe entry count capacity) (wrapUint32 ((count : Int) + 1)) := by
  obtain ⟨element, hk, hne, hm⟩ := (passedAt_iff S roots t key entry).mp h
  rw [body_some S roots t key capacity entry count element hk hne, if_neg (by rw [hm]; decide)]

theorem empty_not_hit {Key : Type} (S : Shape Key) (roots : ReadOnlyRoots) (t : FixedArray)
    (key : Key) (entry : InternalIndex) (h : EmptyAt S roots t entry = true) :
    HitAt S roots t key entry = false ∧ PassedAt S roots t key entry = false := by
  rw [emptyAt_iff] at h
  constructor
  · cases hh : HitAt S roots t key entry
    · rfl
    · obtain ⟨element, hk, hne, _⟩ := (hitAt_iff S roots t key entry).mp hh
      rw [h] at hk
      exact absurd (Option.some.inj hk).symm hne
  · cases hh : PassedAt S roots t key entry
    · rfl
    · obtain ⟨element, hk, hne, _⟩ := (passedAt_iff S roots t key entry).mp hh
      rw [h] at hk
      exact absurd (Option.some.inj hk).symm hne

theorem hit_not_passed {Key : Type} (S : Shape Key) (roots : ReadOnlyRoots) (t : FixedArray)
    (key : Key) (entry : InternalIndex) (h : HitAt S roots t key entry = true) :
    PassedAt S roots t key entry = false ∧ EmptyAt S roots t entry = false := by
  obtain ⟨element, hk, hne, hm⟩ := (hitAt_iff S roots t key entry).mp h
  constructor
  · cases hh : PassedAt S roots t key entry
    · rfl
    · obtain ⟨element1, hk1, _, hm1⟩ := (passedAt_iff S roots t key entry).mp hh
      rw [hk] at hk1
      rw [← Option.some.inj hk1, hm] at hm1
      exact absurd hm1 (by decide)
  · cases hh : EmptyAt S roots t entry
    · rfl
    · rw [(empty_not_hit S roots t key entry hh).1] at h
      exact absurd h (by decide)

theorem passed_not_hit {Key : Type} (S : Shape Key) (roots : ReadOnlyRoots) (t : FixedArray)
    (key : Key) (entry : InternalIndex) (h : PassedAt S roots t key entry = true) :
    HitAt S roots t key entry = false ∧ EmptyAt S roots t entry = false := by
  refine ⟨?_, ?_⟩
  · cases hh : HitAt S roots t key entry
    · rfl
    · rw [(hit_not_passed S roots t key entry hh).1] at h; exact absurd h (by decide)
  · cases hh : EmptyAt S roots t entry
    · rfl
    · rw [(empty_not_hit S roots t key entry hh).2] at h; exact absurd h (by decide)

/-! ## The loop along the probe sequence -/

theorem count_succ (N : Nat) :
    wrapUint32 (((wrapUint32 ((N : Int) + 1) : Nat) : Int) + 1) =
      wrapUint32 (((N + 1 : Nat) : Int) + 1) := by
  unfold wrapUint32
  omega

theorem loop_succ {Key : Type} (S : Shape Key) (roots : ReadOnlyRoots) (t : FixedArray)
    (key : Key) (capacity fuel : Nat) (entry : InternalIndex) (count : Nat) :
    FindEntryLoop S roots t key capacity (fuel + 1) entry count =
      match FindEntryBody S roots t key capacity entry count with
      | LoopStep.done r => r
      | LoopStep.next entry1 count1 => FindEntryLoop S roots t key capacity fuel entry1 count1 := by
  rfl

theorem loop_step_passed {Key : Type} (S : Shape Key) (roots : ReadOnlyRoots) (t : FixedArray)
    (key : Key) (hash capacity fuel N : Nat)
    (h : PassedAt S roots t key (probeSequence hash capacity N) = true) :
    FindEntryLoop S roots t key capacity (fuel + 1) (probeSequence hash capacity N)
        (wrapUint32 ((N : Int) + 1)) =
      FindEntryLoop S roots t key capacity fuel (probeSequence hash capacity (N + 1))
        (wrapUint32 (((N + 1 : Nat) : Int) + 1)) := by
  rw [loop_succ, body_passed S roots t key capacity _ _ h, count_succ]
  rfl

theorem loop_step_hit {Key : Type} (S : Shape Key) (roots : ReadOnlyRoots) (t : FixedArray)
    (key : Key) (capacity fuel : Nat) (entry : InternalIndex) (count : Nat)
    (h : HitAt S roots t key entry = true) :
    FindEntryLoop S roots t key capacity (fuel + 1) entry count = Outcome.value entry := by
  rw [loop_succ, body_hit S roots t key capacity _ _ h]

theorem loop_step_empty {Key : Type} (S : Shape Key) (roots : ReadOnlyRoots) (t : FixedArray)
    (key : Key) (capacity fuel : Nat) (entry : InternalIndex) (count : Nat)
    (h : EmptyAt S roots t entry = true) :
    FindEntryLoop S roots t key capacity (fuel + 1) entry count =
      Outcome.value InternalIndex.NotFound := by
  rw [loop_succ, body_empty S roots t key capacity _ _ h]

theorem loop_step_fault {Key : Type} (S : Shape Key) (roots : ReadOnlyRoots) (t : FixedArray)
    (key : Key) (capacity fuel : Nat) (entry : InternalIndex) (count : Nat)
    (h : KeyAt S t entry = none) :
    FindEntryLoop S roots t key capacity (fuel + 1) entry count = Outcome.fault := by
  rw [loop_succ, body_fault S roots t key capacity _ _ h]

theorem loop_hit {Key : Type} (S : Shape Key) (roots : ReadOnlyRoots) (t : FixedArray)
    (key : Key) (hash capacity : Nat) :
    ∀ (K N fuel : Nat),
      (∀ M, M < K → PassedAt S roots t key (probeSequence hash capacity (N + M)) = true) →
      HitAt S roots t key (probeSequence hash capacity (N + K)) = true → K < fuel →
      FindEntryLoop S roots t key capacity fuel (probeSequence hash capacity N)
        (wrapUint32 ((N : Int) + 1)) = Outcome.value (probeSequence hash capacity (N + K)) := by
  intro K
  induction K with
  | zero =>
    intro N fuel _ hhit hf
    obtain ⟨f, rfl⟩ : ∃ f, fuel = f + 1 := ⟨fuel - 1, by omega⟩
    rw [Nat.add_zero] at hhit ⊢
    exact loop_step_hit S roots t key capacity f _ _ hhit
  | succ K ih =>
    intro N fuel hpass hhit hf
    obtain ⟨f, rfl⟩ : ∃ f, fuel = f + 1 := ⟨fuel - 1, by omega⟩
    rw [loop_step_passed S roots t key hash capacity f N (hpass 0 (by omega))]
    have := ih (N + 1) f
      (fun M hM => by
        have := hpass (M + 1) (by omega)
        rwa [show N + (M + 1) = N + 1 + M by omega] at this)
      (by rwa [show N + (K + 1) = N + 1 + K by omega] at hhit) (by omega)
    rw [this, show N + (K + 1) = N + 1 + K by omega]

theorem loop_empty {Key : Type} (S : Shape Key) (roots : ReadOnlyRoots) (t : FixedArray)
    (key : Key) (hash capacity : Nat) :
    ∀ (K N fuel : Nat),
      (∀ M, M < K → PassedAt S roots t key (probeSequence hash capacity (N + M)) = true) →
      EmptyAt S roots t (probeSequence hash capacity (N + K)) = true → K < fuel →
      FindEntryLoop S roots t key capacity fuel (probeSequence hash capacity N)
        (wrapUint32 ((N : Int) + 1)) = Outcome.value InternalIndex.NotFound := by
  intro K
  induction K with
  | zero =>
    intro N fuel _ hemp hf
    obtain ⟨f, rfl⟩ : ∃ f, fuel = f + 1 := ⟨fuel - 1, by omega⟩
    rw [Nat.add_zero] at hemp
    exact loop_step_empty S roots t key capacity f _ _ hemp
  | succ K ih =>
    intro N fuel hpass hemp hf
    obtain ⟨f, rfl⟩ : ∃ f, fuel = f + 1 := ⟨fuel - 1, by omega⟩
    rw [loop_step_passed S roots t key hash capacity f N (hpass 0 (by omega))]
    exact ih (N + 1) f
      (fun M hM => by
        have := hpass (M + 1) (by omega)
        rwa [show N + (M + 1) = N + 1 + M by omega] at this)
      (by rwa [show N + (K + 1) = N + 1 + K by omega] at hemp) (by omega)

theorem loop_outOfFuel {Key : Type} (S : Shape Key) (roots : ReadOnlyRoots) (t : FixedArray)
    (key : Key) (hash capacity : Nat) :
    ∀ (fuel N : Nat),
      (∀ M, M < fuel → PassedAt S roots t key (probeSequence hash capacity (N + M)) = true) →
      FindEntryLoop S roots t key capacity fuel (probeSequence hash capacity N)
        (wrapUint32 ((N : Int) + 1)) = Outcome.outOfFuel := by
  intro fuel
  induction fuel with
  | zero => intro N _; rfl
  | succ f ih =>
    intro N hpass
    rw [loop_step_passed S roots t key hash capacity f N (hpass 0 (by omega))]
    exact ih (N + 1) (fun M hM => by
      have := hpass (M + 1) (by omega)
      rwa [show N + (M + 1) = N + 1 + M by omega] at this)

theorem loop_value_inv {Key : Type} (S : Shape Key) (roots : ReadOnlyRoots) (t : FixedArray)
    (key : Key) (hash capacity : Nat) :
    ∀ (fuel N : Nat) (r : InternalIndex),
      FindEntryLoop S roots t key capacity fuel (probeSequence hash capacity N)
        (wrapUint32 ((N : Int) + 1)) = Outcome.value r →
      ∃ K, K < fuel ∧
        (∀ M, M < K → PassedAt S roots t key (probeSequence hash capacity (N + M)) = true) ∧
        ((HitAt S roots t key (probeSequence hash capacity (N + K)) = true ∧
            r = probeSequence hash capacity (N + K)) ∨
          (EmptyAt S roots t (probeSequence hash capacity (N + K)) = true ∧
            r = InternalIndex.NotFound)) := by
  intro fuel
  induction fuel with
  | zero =>
    intro N r h
    have h0 : FindEntryLoop S roots t key capacity 0 (probeSequence hash capacity N)
        (wrapUint32 ((N : Int) + 1)) = Outcome.outOfFuel := rfl
    rw [h0] at h
    exact absurd h (by intro hc; cases hc)
  | succ f ih =>
    intro N r h
    rcases slot_cases S roots t key (probeSequence hash capacity N) with h0 | h0 | h0 | h0
    · rw [loop_step_fault S roots t key capacity f _ _ h0] at h
      exact absurd h (by intro hc; cases hc)
    · rw [loop_step_empty S roots t key capacity f _ _ h0] at h
      exact ⟨0, by omega, fun M hM => absurd hM (by omega),
        Or.inr ⟨h0, (Outcome.value.inj h).symm⟩⟩
    · rw [loop_step_hit S roots t key capacity f _ _ h0] at h
      exact ⟨0, by omega, fun M hM => absurd hM (by omega),
        Or.inl ⟨h0, (Outcome.value.inj h).symm⟩⟩
    · rw [loop_step_passed S roots t key hash capacity f N h0] at h
      obtain ⟨K, hK, hpass, hres⟩ := ih (N + 1) r h
      refine ⟨K + 1, by omega, ?_, ?_⟩
      · intro M hM
        rcases M with _ | M
        · exact h0
        · have := hpass M (by omega)
          rwa [show N + 1 + M = N + (M + 1) by omega] at this
      · rwa [show N + 1 + K = N + (K + 1) by omega] at hres

/-! ## Lookup along the probe sequence -/

theorem findEntry_eq_loop {Key : Type} (S : Shape Key) (roots : ReadOnlyRoots) (t : FixedArray)
    (key : Key) (hash : Int) (fuel : Nat) (c : Int) (hcap : Capacity t = some c) :
    FindEntry S roots t key hash fuel =
      FindEntryLoop S roots t key (wrapUint32 c) fuel
        (probeSequence (wrapUint32 hash) (wrapUint32 c) 0) (wrapUint32 (((0 : Nat) : Int) + 1)) := by
  unfold FindEntry
  rw [hcap]
  rfl

theorem findEntry_value_capacity {Key : Type} (S : Shape Key) (roots : ReadOnlyRoots)
    (t : FixedArray) (key : Key) (hash : Int) (fuel : Nat) (r : InternalIndex)
    (h : FindEntry S roots t key hash fuel = Outcome.value r) : ∃ c, Capacity t = some c := by
  cases hc : Capacity t with
  | none =>
    unfold FindEntry at h
    rw [hc] at h
    exact absurd h (by intro hcon; cases hcon)
  | some c => exact ⟨c, rfl⟩

/-- A lookup that returns, returns after a run of passed entries, at the first
entry that is a hit or is Empty. -/
theorem findEntry_value_inv {Key : Type} (S : Shape Key) (roots : ReadOnlyRoots)
    (t : FixedArray) (key : Key) (hash : Int) (fuel : Nat) (c : Int) (r : InternalIndex)
    (hcap : Capacity t = some c) (h : FindEntry S roots t key hash fuel = Outcome.value r) :
    ∃ K, K < fuel ∧
      (∀ M, M < K →
        PassedAt S roots t key (probeSequence (wrapUint32 hash) (wrapUint32 c) M) = true) ∧
      ((HitAt S roots t key (probeSequence (wrapUint32 hash) (wrapUint32 c) K) = true ∧
          r = probeSequence (wrapUint32 hash) (wrapUint32 c) K) ∨
        (EmptyAt S roots t (probeSequence (wrapUint32 hash) (wrapUint32 c) K) = true ∧
          r = InternalIndex.NotFound)) := by
  rw [findEntry_eq_loop S roots t key hash fuel c hcap] at h
  obtain ⟨K, hK, hpass, hres⟩ := loop_value_inv S roots t key _ _ fuel 0 r h
  refine ⟨K, hK, ?_, ?_⟩
  · intro M hM
    have := hpass M hM
    rwa [Nat.zero_add] at this
  · rwa [Nat.zero_add] at hres

theorem findEntry_hit {Key : Type} (S : Shape Key) (roots : ReadOnlyRoots)
    (t : FixedArray) (key : Key) (hash : Int) (c : Int) (hcap : Capacity t = some c) (K : Nat)
    (hpass : ∀ M, M < K →
      PassedAt S roots t key (probeSequence (wrapUint32 hash) (wrapUint32 c) M) = true)
    (hhit : HitAt S roots t key (probeSequence (wrapUint32 hash) (wrapUint32 c) K) = true)
    (fuel : Nat) (hf : K < fuel) :
    FindEntry S roots t key hash fuel =
      Outcome.value (probeSequence (wrapUint32 hash) (wrapUint32 c) K) := by
  rw [findEntry_eq_loop S roots t key hash fuel c hcap]
  have := loop_hit S roots t key (wrapUint32 hash) (wrapUint32 c) K 0 fuel
    (fun M hM => by rw [Nat.zero_add]; exact hpass M hM) (by rw [Nat.zero_add]; exact hhit) hf
  rw [this, Nat.zero_add]

theorem findEntry_empty {Key : Type} (S : Shape Key) (roots : ReadOnlyRoots)
    (t : FixedArray) (key : Key) (hash : Int) (c : Int) (hcap : Capacity t = some c) (K : Nat)
    (hpass : ∀ M, M < K →
      PassedAt S roots t key (probeSequence (wrapUint32 hash) (wrapUint32 c) M) = true)
    (hemp : EmptyAt S roots t (probeSequence (wrapUint32 hash) (wrapUint32 c) K) = true)
    (fuel : Nat) (hf : K < fuel) :
    FindEntry S roots t key hash fuel = Outcome.value InternalIndex.NotFound := by
  rw [findEntry_eq_loop S roots t key hash fuel c hcap]
  exact loop_empty S roots t key (wrapUint32 hash) (wrapUint32 c) K 0 fuel
    (fun M hM => by rw [Nat.zero_add]; exact hpass M hM) (by rw [Nat.zero_add]; exact hemp) hf

/-- A lookup that returns with some fuel returns the same value with any
larger fuel. -/
theorem findEntry_mono {Key : Type} (S : Shape Key) (roots : ReadOnlyRoots)
    (t : FixedArray) (key : Key) (hash : Int) (fuel fuel1 : Nat) (r : InternalIndex)
    (h : FindEntry S roots t key hash fuel = Outcome.value r) (hf : fuel ≤ fuel1) :
    FindEntry S roots t key hash fuel1 = Outcome.value r := by
  obtain ⟨c, hcap⟩ := findEntry_value_capacity S roots t key hash fuel r h
  obtain ⟨K, hK, hpass, hres⟩ := findEntry_value_inv S roots t key hash fuel c r hcap h
  rcases hres with ⟨hhit, rfl⟩ | ⟨hemp, rfl⟩
  · exact findEntry_hit S roots t key hash c hcap K hpass hhit fuel1 (by omega)
  · exact findEntry_empty S roots t key hash c hcap K hpass hemp fuel1 (by omega)

theorem notFound_not_found : InternalIndex.NotFound.is_found = false := by decide

/-- Claim C3.  If `FindEntry` returns a found index, the key stored at that
entry is not the Empty sentinel, is not the Tombstone sentinel when the shape
checks for the hole, and matches the key; the lookup only reads the table, and
every other run of the same call on it returns the same index. -/
theorem findEntry_found_sound {Key : Type} (S : Shape Key) (roots : ReadOnlyRoots)
    (t : FixedArray) (key : Key) (hash : Int) (fuel : Nat) (e : InternalIndex)
    (h : FindEntry S roots t key hash fuel = Outcome.value e) (hf : e.is_found = true) :
    (∃ element, KeyAt S t e = some element ∧ element ≠ roots.undefined_value ∧
      (S.kNeedsHoleCheck = true → element ≠ roots.the_hole_value) ∧
      S.IsMatch key element = true) ∧
    (∀ fuel1, fuel ≤ fuel1 → FindEntry S roots t key hash fuel1 = Outcome.value e) ∧
    (∀ fuel1 r, FindEntry S roots t key hash fuel1 = Outcome.value r → r = e) := by
  obtain ⟨c, hcap⟩ := findEntry_value_capacity S roots t key hash fuel e h
  obtain ⟨K, hK, hpass, hres⟩ := findEntry_value_inv S roots t key hash fuel c e hcap h
  refine ⟨?_, fun fuel1 hle => findEntry_mono S roots t key hash fuel fuel1 e h hle, ?_⟩
  · rcases hres with ⟨hhit, he⟩ | ⟨_, he⟩
    · rw [← he] at hhit
      obtain ⟨element, hk, h1, hm⟩ := (hitAt_iff S roots t key e).mp hhit
      unfold MatchesKey at hm
      simp only [Bool.and_eq_true, Bool.not_eq_true', Bool.and_eq_false_iff,
        decide_eq_false_iff_not] at hm
      obtain ⟨h2, h3⟩ := hm
      refine ⟨element, hk, h1, ?_, h3⟩
      intro hn heq
      rcases h2 with h2 | h2
      · rw [hn] at h2; exact absurd h2 (by decide)
      · exact h2 heq.symm
    · rw [he, notFound_not_found] at hf
      exact absurd hf (by decide)
  · intro fuel1 r hr
    have h1 := findEntry_mono S roots t key hash fuel (max fuel fuel1) e h (le_max_left _ _)
    have h2 := findEntry_mono S roots t key hash fuel1 (max fuel fuel1) r hr (le_max_right _ _)
    rw [h1] at h2
    exact (Outcome.value.inj h2).symm

theorem findEntry_found_sound_witness :
    (∃ element, KeyAt (identityShape true) sampleTable ⟨2⟩ = some element ∧
      element ≠ sampleRoots.undefined_value ∧
      ((identityShape true).kNeedsHoleCheck = true → element ≠ sampleRoots.the_hole_value) ∧
      (identityShape true).IsMatch keyB element = true) ∧
    (∀ fuel1, 2 ≤ fuel1 →
      FindEntry (identityShape true) sampleRoots sampleTable keyB 9 fuel1 = Outcome.value ⟨2⟩) ∧
    (∀ fuel1 r, FindEntry (identityShape true) sampleRoots sampleTable keyB 9 fuel1 =
      Outcome.value r → r = ⟨2⟩) :=
  findEntry_found_sound (identityShape true) sampleRoots sampleTable keyB 9 2 ⟨2⟩
    (by decide) (by decide)

/-! ## The positions a lookup examines -/

theorem loopTrace_succ {Key : Type} (S : Shape Key) (roots : ReadOnlyRoots) (t : FixedArray)
    (key : Key) (capacity fuel : Nat) (entry : InternalIndex) (count : Nat) :
    FindEntryLoopTrace S roots t key capacity (fuel + 1) entry count =
      entry :: match FindEntryBody S roots t key capacity entry count with
        | LoopStep.done _ => []
        | LoopStep.next entry1 count1 =>
          FindEntryLoopTrace S roots t key capacity fuel entry1 count1 := by
  rfl

theorem loopTrace_passed {Key : Type} (S : Shape Key) (roots : ReadOnlyRoots) (t : FixedArray)
    (key : Key) (capacity fuel : Nat) (entry : InternalIndex) (count : Nat)
    (h : PassedAt S roots t key entry = true) :
    FindEntryLoopTrace S roots t key capacity (fuel + 1) entry count =
      entry :: FindEntryLoopTrace S roots t key capacity fuel
        (NextProbe entry count capacity) (wrapUint32 ((count : Int) + 1)) := by
  rw [loopTrace_succ, body_passed S roots t key capacity _ _ h]

theorem loopTrace_done {Key : Type} (S : Shape Key) (roots : ReadOnlyRoots) (t : FixedArray)
    (key : Key) (capacity fuel : Nat) (entry : InternalIndex) (count : Nat)
    (r : Outcome InternalIndex)
    (h : FindEntryBody S roots t key capacity entry count = LoopStep.done r) :
    FindEntryLoopTrace S roots t key capacity (fuel + 1) entry count = [entry] := by
  rw [loopTrace_succ, h]

theorem loopTrace_get {Key : Type} (S : Shape Key) (roots : ReadOnlyRoots) (t : FixedArray)
    (key : Key) (hash capacity : Nat) :
    ∀ (fuel N i : Nat) (p : InternalIndex),
      (FindEntryLoopTrace S roots t key capacity fuel (probeSequence hash capacity N)
        (wrapUint32 ((N : Int) + 1)))[i]? = some p →
      p = probeSequence hash capacity (N + i) := by
  intro fuel
  induction fuel with
  | zero =>
    intro N i p h
    have h0 : FindEntryLoopTrace S roots t key capacity 0 (probeSequence hash capacity N)
        (wrapUint32 ((N : Int) + 1)) = [] := rfl
    rw [h0] at h
    exact absurd h (by simp)
  | succ f ih =>
    intro N i p h
    rcases slot_cases S roots t key (probeSequence hash capacity N) with h0 | h0 | h0 | h0
    · rw [loopTrace_done S roots t key capacity f _ _ _
        (body_fault S roots t key capacity _ _ h0)] at h
      rcases i with _ | i
      · exact (Option.some.inj h).symm
      · exact absurd h (by simp)
    · rw [loopTrace_done S roots t key capacity f _ _ _
        (body_empty S roots t key capacity _ _ h0)] at h
      rcases i with _ | i
      · exact (Option.some.inj h).symm
      · exact absurd h (by simp)
    · rw [loopTrace_done S roots t key capacity f _ _ _
        (body_hit S roots t key capacity _ _ h0)] at h
      rcases i with _ | i
      · exact (Option.some.inj h).symm
      · exact absurd h (by simp)
    · rw [loopTrace_passed S roots t key capacity f _ _ h0, count_succ] at h
      rcases i with _ | i
      · rw [List.getElem?_cons_zero] at h
        exact (Option.some.inj h).symm
      · rw [List.getElem?_cons_succ] at h
        have := ih (N + 1) i p h
        rwa [show N + 1 + i = N + (i + 1) by omega] at this

theorem wrapUint32_two_pow (k : Nat) (hk : k ≤ 31) : wrapUint32 ((2 : Int) ^ k) = 2 ^ k := by
  have h1 : ((2 : Int) ^ k) = ((2 ^ k : Nat) : Int) := by push_cast; rfl
  rw [h1, wrapUint32_natCast]
  apply Nat.mod_eq_of_lt
  have h2 : 2 ^ k ≤ 2 ^ 31 := Nat.pow_le_pow_right (by decide) hk
  have h3 : (2 : Nat) ^ 31 = 2147483648 := by norm_num
  omega

theorem probeSequence_int (hash : Int) (k : Nat) (hk : k ≤ 31) (N : Nat) :
    ((probeSequence (wrapUint32 hash) (2 ^ k) N).raw : Int) =
      (hash + ((N * (N + 1) / 2 : Nat) : Int)) % 2 ^ k := by
  rw [probeSequence_raw _ k (by omega)]
  have hw : ((wrapUint32 hash : Nat) : Int) = hash % 4294967296 := by
    unfold wrapUint32; omega
  have hd : ((2 : Int) ^ k) ∣ 4294967296 := by
    have : (4294967296 : Int) = 2 ^ 32 := by norm_num
    rw [this]
    exact pow_dvd_pow 2 (by omega)
  push_cast
  rw [hw, Int.add_emod, Int.emod_emod_of_dvd _ hd, ← Int.add_emod]

theorem findEntryTrace_eq {Key : Type} (S : Shape Key) (roots : ReadOnlyRoots)
    (t : FixedArray) (key : Key) (hash : Int) (fuel : Nat) (c : Int)
    (hcap : Capacity t = some c) :
    FindEntryTrace S roots t key hash fuel =
      FindEntryLoopTrace S roots t key (wrapUint32 c) fuel
        (probeSequence (wrapUint32 hash) (wrapUint32 c) 0) (wrapUint32 (((0 : Nat) : Int) + 1)) := by
  unfold FindEntryTrace
  rw [hcap]
  rfl

/-- Claim C5.  For every hash, negative ones included, and capacity `2^k`: the
entry `FindEntry` examines after `N` retries is `(hash + N(N+1)/2) mod 2^k`; the
step from retry `N` to retry `N + 1` is `N + 1`; and in a capacity-8 table whose
entries 1 and 2 hold keys that do not match, a lookup with hash 17 examines the
entries 1, 2, 4 in that order. -/
theorem probe_positions (hash : Int) (k : Nat) (hk : k ≤ 31) (N : Nat) :
    ((probeSequence (wrapUint32 hash) (2 ^ k) N).raw : Int) =
      (hash + ((N * (N + 1) / 2 : Nat) : Int)) % 2 ^ k ∧
    (∀ (Key : Type) (S : Shape Key) (roots : ReadOnlyRoots) (t : FixedArray) (key : Key)
      (fuel : Nat) (p : InternalIndex), Capacity t = some (2 ^ k) →
      (FindEntryTrace S roots t key hash fuel)[N]? = some p →
        (p.raw : Int) = (hash + ((N * (N + 1) / 2 : Nat) : Int)) % 2 ^ k) ∧
    (probeSequence (wrapUint32 hash) (2 ^ k) (N + 1)).raw =
      ((probeSequence (wrapUint32 hash) (2 ^ k) N).raw + (N + 1)) % 2 ^ k ∧
    (∀ (Key : Type) (S : Shape Key) (roots : ReadOnlyRoots) (t8 : FixedArray) (key : Key),
      Capacity t8 = some 8 →
      PassedAt S roots t8 key ⟨1⟩ = true → PassedAt S roots t8 key ⟨2⟩ = true →
      ∀ fuel : Nat, ∃ rest,
        FindEntryTrace S roots t8 key 17 (fuel + 3) = ⟨1⟩ :: ⟨2⟩ :: ⟨4⟩ :: rest) := by
  refine ⟨probeSequence_int hash k hk N, ?_, ?_, ?_⟩
  · intro Key S roots t key fuel p hcap hp
    rw [findEntryTrace_eq S roots t key hash fuel _ hcap, wrapUint32_two_pow k hk] at hp
    have := loopTrace_get S roots t key (wrapUint32 hash) (2 ^ k) fuel 0 N p hp
    rw [this, Nat.zero_add]
    exact probeSequence_int hash k hk N
  · rw [probeSequence_raw _ k (by omega), probeSequence_raw _ k (by omega), triangle_succ,
      Nat.mod_add_mod, Nat.add_assoc]
  · intro Key S roots t8 key hcap8 h1 h2 fuel
    have e0 : probeSequence (wrapUint32 17) (wrapUint32 8) 0 = ⟨1⟩ := by decide
    have c0 : wrapUint32 (((0 : Nat) : Int) + 1) = 1 := by decide
    have e1 : NextProbe ⟨1⟩ 1 (wrapUint32 8) = ⟨2⟩ := by decide
    have c1 : wrapUint32 (((1 : Nat) : Int) + 1) = 2 := by decide
    have e2 : NextProbe ⟨2⟩ 2 (wrapUint32 8) = ⟨4⟩ := by decide
    rw [findEntryTrace_eq S roots t8 key 17 (fuel + 3) _ hcap8, e0, c0,
      loopTrace_passed S roots t8 key _ (fuel + 2) _ _ h1, e1, c1,
      loopTrace_passed S roots t8 key _ (fuel + 1) _ _ h2, e2, loopTrace_succ]
    exact ⟨_, rfl⟩

theorem probe_positions_witness :
    (∃ rest, FindEntryTrace (identityShape true) sampleRoots sampleTable keyC 17 (0 + 3) =
      ⟨1⟩ :: ⟨2⟩ :: ⟨4⟩ :: rest) ∧
    ((probeSequence (wrapUint32 (-15)) (2 ^ 3) 2).raw : Int) =
      (-15 + ((2 * (2 + 1) / 2 : Nat) : Int)) % 2 ^ 3 :=
  ⟨(probe_positions 17 3 (by decide) 2).2.2.2 Object
      (identityShape true) sampleRoots sampleTable keyC (by decide) (by decide) (by decide) 0,
    (probe_positions (-15) 3 (by decide) 2).1⟩

/-- Claim C6.  For a capacity `2^k` and any hash, the first `2^k` positions of the
probe sequence lie in `[0, 2^k)`, are pairwise distinct, and every residue is the
position of exactly one of them. -/
theorem probe_sequence_permutation (hash : Int) (k : Nat) (hk : k ≤ 31) :
    (∀ i, (probeSequence (wrapUint32 hash) (2 ^ k) i).raw < 2 ^ k) ∧
    (∀ i j, i < 2 ^ k → j < 2 ^ k →
      probeSequence (wrapUint32 hash) (2 ^ k) i = probeSequence (wrapUint32 hash) (2 ^ k) j →
        i = j) ∧
    (∀ r, r < 2 ^ k →
      ∃! i, i < 2 ^ k ∧ (probeSequence (wrapUint32 hash) (2 ^ k) i).raw = r) := by
  refine ⟨fun i => probeSequence_lt _ k (by omega) i,
    fun i j hi hj h => probeSequence_injective _ k (by omega) i j hi hj h, ?_⟩
  intro r hr
  obtain ⟨i, hi, hir⟩ := probeSequence_surjective (wrapUint32 hash) k (by omega) r hr
  refine ⟨i, ⟨hi, hir⟩, ?_⟩
  rintro j ⟨hj, hjr⟩
  apply probeSequence_injective (wrapUint32 hash) k (by omega) j i hj hi
  cases hpj : probeSequence (wrapUint32 hash) (2 ^ k) j
  cases hpi : probeSequence (wrapUint32 hash) (2 ^ k) i
  rw [hpj] at hjr
  rw [hpi] at hir
  simp only at hjr hir
  rw [hjr, hir]

theorem probe_sequence_permutation_witness :
    (∀ i, (probeSequence (wrapUint32 17) (2 ^ 3) i).raw < 2 ^ 3) ∧
    (∀ i j, i < 2 ^ 3 → j < 2 ^ 3 →
      probeSequence (wrapUint32 17) (2 ^ 3) i = probeSequence (wrapUint32 17) (2 ^ 3) j →
        i = j) ∧
    (∀ r, r < 2 ^ 3 →
      ∃! i, i < 2 ^ 3 ∧ (probeSequence (wrapUint32 17) (2 ^ 3) i).raw = r) :=
  probe_sequence_permutation 17 3 (by decide)

/-! ## Storage layout and stores into key slots -/

theorem capacity_isInt32 {t : FixedArray} {c : Int} (h : Capacity t = some c) : IsInt32 c := by
  unfold Capacity loadSmi at h
  cases hg : t.get kCapacityIndex with
  | none => simp [hg] at h
  | some o =>
    cases o with
    | heapObject a => simp [hg, Smi.ToInt] at h
    | smi v =>
      by_cases hv : IsInt32 v
      · simp [hg, Smi.ToInt, hv] at h
        rw [← h]; exact hv
      · simp [hg, Smi.ToInt, hv] at h

theorem capacity_pow_le {t : FixedArray} {k : Nat} (h : Capacity t = some (2 ^ k)) :
    k ≤ 30 := by
  have hi := capacity_isInt32 h
  unfold IsInt32 at hi
  by_contra hcon
  have h1 : (2 : Nat) ^ 31 ≤ 2 ^ k := Nat.pow_le_pow_right (by decide) (by omega)
  have h2 : ((2 : Int) ^ 31) ≤ 2 ^ k := by exact_mod_cast h1
  have h3 : (2 : Int) ^ 31 = 2147483648 := by norm_num
  omega

theorem internalIndex_eta (x : InternalIndex) : x = ⟨x.raw⟩ := by cases x; rfl

theorem internalIndex_ne {x y : InternalIndex} (h : x ≠ y) : x.raw ≠ y.raw := by
  intro hr
  apply h
  cases x; cases y
  simp only at hr
  rw [hr]

/-- Under the storage layout the key slot of an entry below the capacity lies
after the header and inside the array, at `kElementsStartIndex + entry *
kEntrySize`. -/
theorem keyIndex_of_layout {Key : Type} (S : Shape Key) (t : FixedArray) (c : Int)
    (hl : TableLayout S t c = true) (e : InternalIndex) (he : (e.raw : Int) < c) :
    KeyIndex S e = kElementsStartIndex S + (e.raw : Int) * S.kEntrySize ∧
      3 ≤ KeyIndex S e ∧ KeyIndex S e < t.length := by
  simp only [TableLayout, Bool.and_eq_true, decide_eq_true_eq] at hl
  obtain ⟨⟨⟨h1, h2⟩, h3⟩, h4⟩ := hl
  have hx0 : (0 : Int) ≤ (e.raw : Int) := Int.natCast_nonneg _
  have hmul : ((e.raw : Int) + 1) * S.kEntrySize ≤ c * S.kEntrySize :=
    mul_le_mul_of_nonneg_right (by omega) (by omega)
  have hmul2 : (e.raw : Int) * 1 ≤ (e.raw : Int) * S.kEntrySize :=
    mul_le_mul_of_nonneg_left h2 hx0
  have hexp : ((e.raw : Int) + 1) * S.kEntrySize = (e.raw : Int) * S.kEntrySize + S.kEntrySize := by
    ring
  rw [hexp] at hmul
  rw [mul_one] at hmul2
  unfold kElementsStartIndex kPrefixStartIndex at h3
  generalize hy : (e.raw : Int) * S.kEntrySize = y at hmul hmul2
  generalize hz : c * S.kEntrySize = z at hmul h3
  have hraw : e.as_int = (e.raw : Int) := by
    unfold InternalIndex.as_int
    apply wrapInt32_of_isInt32
    unfold IsInt32; omega
  have hidx : KeyIndex S e = kElementsStartIndex S + y := by
    unfold KeyIndex EntryToIndex kEntryKeyIndex kElementsStartIndex kPrefixStartIndex
    rw [hraw, hy]
    rw [wrapInt32_of_isInt32 (x := y) (by unfold IsInt32; omega)]
    rw [wrapInt32_of_isInt32 (x := y + (3 + S.kPrefixSize)) (by unfold IsInt32; omega)]
    rw [wrapInt32_of_isInt32 (by unfold IsInt32; omega)]
    omega
  rw [hidx]
  unfold kElementsStartIndex kPrefixStartIndex
  refine ⟨rfl, by omega, by omega⟩

theorem keyIndex_injective {Key : Type} (S : Shape Key) (t : FixedArray) (c : Int)
    (hl : TableLayout S t c = true) (e e1 : InternalIndex) (he : (e.raw : Int) < c)
    (he1 : (e1.raw : Int) < c) (h : KeyIndex S e = KeyIndex S e1) : e = e1 := by
  rw [(keyIndex_of_layout S t c hl e he).1, (keyIndex_of_layout S t c hl e1 he1).1] at h
  simp only [TableLayout, Bool.and_eq_true, decide_eq_true_eq] at hl
  have hs : S.kEntrySize ≠ 0 := by omega
  have h2 : (e.raw : Int) * S.kEntrySize = (e1.raw : Int) * S.kEntrySize := by omega
  have h3 : (e.raw : Int) = (e1.raw : Int) := mul_right_cancel₀ hs h2
  rw [internalIndex_eta e, internalIndex_eta e1]
  congr 1
  exact_mod_cast h3

theorem fixedArray_get_isSome (t : FixedArray) (i : Int) (h0 : 0 ≤ i) (h1 : i < t.length) :
    ∃ o, t.get i = some o := by
  unfold FixedArray.get
  unfold FixedArray.length at h1
  have : i.toNat < t.elements.length := by omega
  exact ⟨t.elements[i.toNat], by simp [h0, this]⟩

theorem fixedArray_set_isSome (t : FixedArray) (i : Int) (v : Object) (h0 : 0 ≤ i)
    (h1 : i < t.length) : ∃ t1, t.set i v = some t1 := by
  unfold FixedArray.set
  exact ⟨⟨t.elements.set i.toNat v⟩, if_pos ⟨h0, h1⟩⟩

theorem fixedArray_set_spec {t t1 : FixedArray} {i : Int} {v : Object}
    (h : t.set i v = some t1) :
    t1.get i = some v ∧ (∀ j, j ≠ i → t1.get j = t.get j) ∧ t1.length = t.length := by
  unfold FixedArray.set at h
  by_cases hi : 0 ≤ i ∧ i < t.length
  · simp only [hi, and_self, if_true, Option.some.injEq] at h
    subst h
    unfold FixedArray.length at hi
    have hlt : i.toNat < t.elements.length := by omega
    refine ⟨?_, ?_, ?_⟩
    · simp [FixedArray.get, hi.1, hlt]
    · intro j hj
      unfold FixedArray.get
      by_cases hj0 : 0 ≤ j
      · have hne : i.toNat ≠ j.toNat := by omega
        simp [hj0, List.getElem?_set_ne hne]
      · simp [hj0]
    · simp [FixedArray.length]
  · simp [hi] at h

theorem keyAt_readable {Key : Type} (S : Shape Key) (t : FixedArray) (c : Int)
    (hl : TableLayout S t c = true) (e : InternalIndex) (he : (e.raw : Int) < c) :
    ∃ o, KeyAt S t e = some o := by
  obtain ⟨_, h3, hlen⟩ := keyIndex_of_layout S t c hl e he
  exact fixedArray_get_isSome t _ (by omega) hlen

/-- A readable entry that is neither Empty nor a hit is passed. -/
theorem passed_of_not {Key : Type} (S : Shape Key) (roots : ReadOnlyRoots) (t : FixedArray)
    (key : Key) (e : InternalIndex) (hr : ∃ o, KeyAt S t e = some o)
    (h1 : EmptyAt S roots t e = false) (h2 : HitAt S roots t key e = false) :
    PassedAt S roots t key e = true := by
  obtain ⟨o, ho⟩ := hr
  rcases slot_cases S roots t key e with h | h | h | h
  · rw [ho] at h; exact absurd h (by simp)
  · rw [h] at h1; exact absurd h1 (by decide)
  · rw [h] at h2; exact absurd h2 (by decide)
  · exact h

theorem notFound_ne_index (i : Nat) (hi : i < 4294967296) :
    InternalIndex.NotFound ≠ ⟨i⟩ := by
  intro h
  have := congrArg InternalIndex.raw h
  simp only [InternalIndex.NotFound] at this
  omega

/-- Claim C4.  On a table of capacity `2^k` with its storage laid out:
`FindEntry` examines the probe sequence that starts at `FirstProbe`; when an entry
on it is a hit and no earlier entry is a hit or Empty, that entry is returned;
`NotFound` is returned exactly when an Empty entry comes before any hit; and
`NotFound` differs from every index below the capacity. -/
theorem findEntry_first_match {Key : Type} (S : Shape Key) (roots : ReadOnlyRoots)
    (t : FixedArray) (key : Key) (hash : Int) (k : Nat)
    (hcap : Capacity t = some (2 ^ k)) (hl : TableLayout S t (2 ^ k) = true) :
    (probeSequence (wrapUint32 hash) (2 ^ k) 0 = FirstProbe (wrapUint32 hash) (2 ^ k) ∧
      ∀ (fuel i : Nat) (p : InternalIndex),
        (FindEntryTrace S roots t key hash fuel)[i]? = some p →
          p = probeSequence (wrapUint32 hash) (2 ^ k) i) ∧
    (∀ N, HitAt S roots t key (probeSequence (wrapUint32 hash) (2 ^ k) N) = true →
      (∀ M, M < N →
        HitAt S roots t key (probeSequence (wrapUint32 hash) (2 ^ k) M) = false ∧
        EmptyAt S roots t (probeSequence (wrapUint32 hash) (2 ^ k) M) = false) →
      ∀ fuel, N < fuel →
        FindEntry S roots t key hash fuel =
          Outcome.value (probeSequence (wrapUint32 hash) (2 ^ k) N)) ∧
    ((∃ fuel, FindEntry S roots t key hash fuel = Outcome.value InternalIndex.NotFound) ↔
      ∃ N, EmptyAt S roots t (probeSequence (wrapUint32 hash) (2 ^ k) N) = true ∧
        ∀ M, M < N →
          HitAt S roots t key (probeSequence (wrapUint32 hash) (2 ^ k) M) = false) ∧
    (∀ i, i < 2 ^ k → InternalIndex.NotFound ≠ ⟨i⟩ ∧ InternalIndex.is_found ⟨i⟩ = true) := by
  have hk : k ≤ 30 := capacity_pow_le hcap
  have hw : wrapUint32 ((2 : Int) ^ k) = 2 ^ k := wrapUint32_two_pow k (by omega)
  have hlt : ∀ N, (((probeSequence (wrapUint32 hash) (2 ^ k) N).raw : Nat) : Int) < 2 ^ k := by
    intro N
    exact_mod_cast probeSequence_lt (wrapUint32 hash) k (by omega) N
  have hread : ∀ N, ∃ o, KeyAt S t (probeSequence (wrapUint32 hash) (2 ^ k) N) = some o :=
    fun N => keyAt_readable S t _ hl _ (hlt N)
  have hsmall : ∀ i, i < 2 ^ k → i < 4294967296 := by
    intro i hi
    have h1 : 2 ^ k ≤ 2 ^ 30 := Nat.pow_le_pow_right (by decide) hk
    have h2 : (2 : Nat) ^ 30 = 1073741824 := by norm_num
    omega
  refine ⟨⟨rfl, ?_⟩, ?_, ?_, ?_⟩
  · intro fuel i p hp
    rw [findEntryTrace_eq S roots t key hash fuel _ hcap, hw] at hp
    have := loopTrace_get S roots t key (wrapUint32 hash) (2 ^ k) fuel 0 i p hp
    rw [this, Nat.zero_add]
  · intro N hhit hbefore fuel hf
    have := findEntry_hit S roots t key hash _ hcap N
      (fun M hM => by
        rw [hw]
        exact passed_of_not S roots t key _ (hread M) (hbefore M hM).2 (hbefore M hM).1)
      (by rw [hw]; exact hhit) fuel hf
    rw [this, hw]
  · constructor
    · rintro ⟨fuel, hfe⟩
      obtain ⟨K, _, hpass, hres⟩ := findEntry_value_inv S roots t key hash fuel _ _ hcap hfe
      rw [hw] at hpass hres
      rcases hres with ⟨_, heq⟩ | ⟨hemp, _⟩
      · exfalso
        have hlt2 := probeSequence_lt (wrapUint32 hash) k (by omega) K
        rw [internalIndex_eta (probeSequence (wrapUint32 hash) (2 ^ k) K)] at heq
        exact notFound_ne_index _ (hsmall _ hlt2) heq
      · exact ⟨K, hemp, fun M hM => (passed_not_hit S roots t key _ (hpass M hM)).1⟩
    · rintro ⟨N, hemp, hnohit⟩
      have hex : ∃ N, EmptyAt S roots t (probeSequence (wrapUint32 hash) (2 ^ k) N) = true :=
        ⟨N, hemp⟩
      have hfirst := Nat.find_spec hex
      have hle : Nat.find hex ≤ N := Nat.find_min' hex hemp
      refine ⟨Nat.find hex + 1, ?_⟩
      apply findEntry_empty S roots t key hash _ hcap (Nat.find hex)
      · intro M hM
        rw [hw]
        apply passed_of_not S roots t key _ (hread M)
        · have := Nat.find_min hex hM
          simpa using this
        · exact hnohit M (by omega)
      · rw [hw]; exact hfirst
      · omega
  · intro i hi
    have hne := notFound_ne_index i (hsmall i hi)
    refine ⟨hne, ?_⟩
    unfold InternalIndex.is_found
    simp only [decide_eq_true_eq]
    intro h
    apply hne
    rw [internalIndex_eta InternalIndex.NotFound, ← h]

theorem findEntry_first_match_witness :
    FindEntry (identityShape true) sampleRoots sampleTable keyB 9 2 = Outcome.value ⟨2⟩ ∧
    ((∃ fuel, FindEntry (identityShape true) sampleRoots sampleTable keyC 17 fuel =
        Outcome.value InternalIndex.NotFound) ↔
      ∃ N, EmptyAt (identityShape true) sampleRoots sampleTable
          (probeSequence (wrapUint32 17) (2 ^ 3) N) = true ∧
        ∀ M, M < N → HitAt (identityShape true) sampleRoots sampleTable keyC
          (probeSequence (wrapUint32 17) (2 ^ 3) M) = false) :=
  ⟨(findEntry_first_match (identityShape true) sampleRoots sampleTable keyB 9 3
      (by decide) (by decide)).2.1 1 (by decide) (by decide) 2 (by decide),
    (findEntry_first_match (identityShape true) sampleRoots sampleTable keyC 17 3
      (by decide) (by decide)).2.2.1⟩

/-! ## Tombstones -/

theorem keyAt_after_set {Key : Type} (S : Shape Key) (t t1 : FixedArray) (c : Int)
    (hl : TableLayout S t c = true) (e : InternalIndex) (he : (e.raw : Int) < c) (v : Object)
    (hset : t.set (KeyIndex S e) v = some t1) :
    KeyAt S t1 e = some v ∧
    (∀ x : InternalIndex, (x.raw : Int) < c → x ≠ e → KeyAt S t1 x = KeyAt S t x) ∧
    Capacity t1 = Capacity t := by
  obtain ⟨hsame, hother, _⟩ := fixedArray_set_spec hset
  obtain ⟨_, h3, _⟩ := keyIndex_of_layout S t c hl e he
  refine ⟨hsame, ?_, ?_⟩
  · intro x hx hne
    apply hother
    intro hk
    exact hne (keyIndex_injective S t c hl x e hx he hk)
  · unfold Capacity loadSmi
    rw [hother kCapacityIndex (by unfold kCapacityIndex; omega)]

theorem slot_congr {Key : Type} (S : Shape Key) (roots : ReadOnlyRoots) (t t1 : FixedArray)
    (key : Key) (x : InternalIndex) (h : KeyAt S t1 x = KeyAt S t x) :
    EmptyAt S roots t1 x = EmptyAt S roots t x ∧
    HitAt S roots t1 key x = HitAt S roots t key x ∧
    PassedAt S roots t1 key x = PassedAt S roots t key x := by
  refine ⟨?_, ?_, ?_⟩
  · rw [Bool.eq_iff_iff, emptyAt_iff, emptyAt_iff, h]
  · rw [Bool.eq_iff_iff, hitAt_iff, hitAt_iff, h]
  · rw [Bool.eq_iff_iff, passedAt_iff, passedAt_iff, h]

/-- An entry whose key slot holds the hole is not Empty, and the lookup of a
key passes it when the shape checks for the hole or its `IsMatch` rejects the
hole. -/
theorem passed_tombstone {Key : Type} (S : Shape Key) (roots : ReadOnlyRoots) (t : FixedArray)
    (key : Key) (e : InternalIndex) (h : KeyAt S t e = some roots.the_hole_value)
    (hskip : S.kNeedsHoleCheck = true ∨ S.IsMatch key roots.the_hole_value = false) :
    PassedAt S roots t key e = true ∧ EmptyAt S roots t e = false := by
  have hd := roots.distinct
  constructor
  · refine (passedAt_iff S roots t key e).mpr ⟨_, h, hd, ?_⟩
    unfold MatchesKey
    rcases hskip with h1 | h1 <;> simp [h1]
  · cases hh : EmptyAt S roots t e
    · rfl
    · have := (emptyAt_iff S roots t e).mp hh
      rw [h] at this
      exact absurd (Option.some.inj this) hd

/-- Claim C7, as amended.  On a table of capacity `2^k` with its storage laid out
and at least one Empty entry, where `FindEntry(key, hash)` returned the index `e`,
no other entry matches `key`, and the shape checks for the hole or its `IsMatch`
rejects the hole: overwriting the key slot of `e` with the hole succeeds, the
lookup of `key` then returns `NotFound` although entry `e` is not Empty, and
every other key that was found at an index other than `e` (and for which the
hole is likewise no match) is still found at its index. -/
theorem tombstone_lookup {Key : Type} (S : Shape Key) (roots : ReadOnlyRoots)
    (t : FixedArray) (key : Key) (hash : Int) (k : Nat) (e : InternalIndex) (fuel : Nat)
    (hcap : Capacity t = some (2 ^ k)) (hl : TableLayout S t (2 ^ k) = true)
    (hfound : FindEntry S roots t key hash fuel = Outcome.value e)
    (hf : e.is_found = true)
    (hother : ∀ i, i < 2 ^ k → i ≠ e.raw → HitAt S roots t key ⟨i⟩ = false)
    (hskip : S.kNeedsHoleCheck = true ∨ S.IsMatch key roots.the_hole_value = false)
    (hempty : ∃ i, i < 2 ^ k ∧ EmptyAt S roots t ⟨i⟩ = true) :
    ∃ t1, t.set (KeyIndex S e) roots.the_hole_value = some t1 ∧
      (∃ fuel1, FindEntry S roots t1 key hash fuel1 = Outcome.value InternalIndex.NotFound) ∧
      KeyAt S t1 e = some roots.the_hole_value ∧ EmptyAt S roots t1 e = false ∧
      (∀ (key2 : Key) (hash2 : Int) (e2 : InternalIndex) (fuel2 : Nat),
        FindEntry S roots t key2 hash2 fuel2 = Outcome.value e2 → e2.is_found = true →
        e2 ≠ e →
        (S.kNeedsHoleCheck = true ∨ S.IsMatch key2 roots.the_hole_value = false) →
        FindEntry S roots t1 key2 hash2 fuel2 = Outcome.value e2) := by
  have hk : k ≤ 30 := capacity_pow_le hcap
  have hw : wrapUint32 ((2 : Int) ^ k) = 2 ^ k := wrapUint32_two_pow k (by omega)
  have hlt : ∀ (h : Int) N, (((probeSequence (wrapUint32 h) (2 ^ k) N).raw : Nat) : Int) < 2 ^ k := by
    intro h N
    exact_mod_cast probeSequence_lt (wrapUint32 h) k (by omega) N
  -- where the first lookup stopped
  obtain ⟨K, _, _, hres⟩ := findEntry_value_inv S roots t key hash fuel _ e hcap hfound
  rw [hw] at hres
  have hhit : HitAt S roots t key e = true ∧ e = probeSequence (wrapUint32 hash) (2 ^ k) K := by
    rcases hres with ⟨h1, h2⟩ | ⟨_, h2⟩
    · rw [← h2] at h1; exact ⟨h1, h2⟩
    · rw [h2, notFound_not_found] at hf; exact absurd hf (by decide)
  have he : ((e.raw : Nat) : Int) < 2 ^ k := by rw [hhit.2]; exact hlt hash K
  -- the store
  obtain ⟨_, h3, hlen⟩ := keyIndex_of_layout S t _ hl e he
  obtain ⟨t1, hset⟩ := fixedArray_set_isSome t (KeyIndex S e) roots.the_hole_value (by omega) hlen
  obtain ⟨hke, hkx, hcap1⟩ := keyAt_after_set S t t1 _ hl e he roots.the_hole_value hset
  rw [hcap] at hcap1
  have hpe : ∀ key1 : Key,
      (S.kNeedsHoleCheck = true ∨ S.IsMatch key1 roots.the_hole_value = false) →
      PassedAt S roots t1 key1 e = true := fun key1 h1 =>
    (passed_tombstone S roots t1 key1 e hke h1).1
  refine ⟨t1, hset, ?_, hke, (passed_tombstone S roots t1 key e hke hskip).2, ?_⟩
  · -- the removed key is reported NotFound
    obtain ⟨i0, hi0, hemp0⟩ := hempty
    have hne0 : (⟨i0⟩ : InternalIndex) ≠ e := by
      intro h
      rw [h, (hit_not_passed S roots t key e hhit.1).2] at hemp0
      exact absurd hemp0 (by decide)
    have hemp1 : EmptyAt S roots t1 ⟨i0⟩ = true := by
      rw [(slot_congr S roots t t1 key ⟨i0⟩ (hkx ⟨i0⟩ (by exact_mod_cast hi0) hne0)).1]
      exact hemp0
    obtain ⟨N0, _, hN0⟩ := probeSequence_surjective (wrapUint32 hash) k (by omega) i0 hi0
    have hex : ∃ N, EmptyAt S roots t1 (probeSequence (wrapUint32 hash) (2 ^ k) N) = true := by
      refine ⟨N0, ?_⟩
      rw [internalIndex_eta (probeSequence (wrapUint32 hash) (2 ^ k) N0), hN0]
      exact hemp1
    refine ⟨Nat.find hex + 1, ?_⟩
    apply findEntry_empty S roots t1 key hash _ hcap1 (Nat.find hex)
    · intro M hM
      rw [hw]
      have hnotemp : EmptyAt S roots t1 (probeSequence (wrapUint32 hash) (2 ^ k) M) = false := by
        simpa using Nat.find_min hex hM
      by_cases hxe : probeSequence (wrapUint32 hash) (2 ^ k) M = e
      · rw [hxe]; exact hpe key hskip
      · have hcg := slot_congr S roots t t1 key _ (hkx _ (hlt hash M) hxe)
        have hread : ∃ o, KeyAt S t1 (probeSequence (wrapUint32 hash) (2 ^ k) M) = some o := by
          rw [hkx _ (hlt hash M) hxe]
          exact keyAt_readable S t _ hl _ (hlt hash M)
        apply passed_of_not S roots t1 key _ hread hnotemp
        rw [hcg.2.1, internalIndex_eta (probeSequence (wrapUint32 hash) (2 ^ k) M)]
        exact hother _ (probeSequence_lt (wrapUint32 hash) k (by omega) M) (internalIndex_ne hxe)
    · rw [hw]; exact Nat.find_spec hex
    · omega
  · -- other keys stay where they were
    intro key2 hash2 e2 fuel2 hfound2 hf2 hne2 hskip2
    obtain ⟨K2, hK2, hpass2, hres2⟩ :=
      findEntry_value_inv S roots t key2 hash2 fuel2 _ e2 hcap hfound2
    rw [hw] at hpass2 hres2
    have hhit2 : HitAt S roots t key2 e2 = true ∧
        e2 = probeSequence (wrapUint32 hash2) (2 ^ k) K2 := by
      rcases hres2 with ⟨h1, h2⟩ | ⟨_, h2⟩
      · rw [← h2] at h1; exact ⟨h1, h2⟩
      · rw [h2, notFound_not_found] at hf2; exact absurd hf2 (by decide)
    have he2 : ((e2.raw : Nat) : Int) < 2 ^ k := by rw [hhit2.2]; exact hlt hash2 K2
    have := findEntry_hit S roots t1 key2 hash2 _ hcap1 K2
      (fun M hM => by
        rw [hw]
        by_cases hxe : probeSequence (wrapUint32 hash2) (2 ^ k) M = e
        · rw [hxe]; exact hpe key2 hskip2
        · rw [(slot_congr S roots t t1 key2 _ (hkx _ (hlt hash2 M) hxe)).2.2]
          exact hpass2 M hM)
      (by
        rw [hw, ← hhit2.2, (slot_congr S roots t t1 key2 e2 (hkx e2 he2 hne2)).2.1]
        exact hhit2.1)
      fuel2 hK2
    rw [this, hw, ← hhit2.2]

theorem tombstone_lookup_witness :
    ∃ t1, sampleTable.set (KeyIndex (identityShape true) ⟨1⟩) sampleRoots.the_hole_value =
        some t1 ∧
      (∃ fuel1, FindEntry (identityShape true) sampleRoots t1 keyA 1 fuel1 =
        Outcome.value InternalIndex.NotFound) ∧
      KeyAt (identityShape true) t1 ⟨1⟩ = some sampleRoots.the_hole_value ∧
      EmptyAt (identityShape true) sampleRoots t1 ⟨1⟩ = false ∧
      FindEntry (identityShape true) sampleRoots t1 keyB 9 2 = Outcome.value ⟨2⟩ := by
  obtain ⟨t1, h1, h2, h3, h4, h5⟩ :=
    tombstone_lookup (identityShape true) sampleRoots sampleTable keyA 1 3 ⟨1⟩ 1
      (by decide) (by decide) (by decide) (by decide) (by decide) (by decide)
      ⟨0, by decide, by decide⟩
  exact ⟨t1, h1, h2, h3, h4,
    h5 keyB 9 ⟨2⟩ 2 (by decide) (by decide) (by decide) (by decide)⟩

theorem loop_never_returns {Key : Type} (S : Shape Key) (roots : ReadOnlyRoots)
    (t : FixedArray) (key : Key) (hash : Int) (k : Nat)
    (hcap : Capacity t = some (2 ^ k))
    (hall : ∀ i, i < 2 ^ k → PassedAt S roots t key ⟨i⟩ = true) (fuel : Nat) :
    FindEntry S roots t key hash fuel = Outcome.outOfFuel := by
  have hk : k ≤ 30 := capacity_pow_le hcap
  rw [findEntry_eq_loop S roots t key hash fuel _ hcap, wrapUint32_two_pow k (by omega)]
  apply loop_outOfFuel
  intro M _
  rw [internalIndex_eta (probeSequence (wrapUint32 hash) (2 ^ k) (0 + M))]
  exact hall _ (probeSequence_lt (wrapUint32 hash) k (by omega) _)

/-- Claim C7 fails as stated.  In the full capacity-4 table `keyB` is found at
entry 1 and matches no other entry, but after entry 1 is overwritten with the
hole the lookup of `keyB` never returns: no Empty entry ends the probe.  And
under a shape that does not check for the hole and whose `IsMatch` accepts it, a
lookup that found the hole at entry 1 finds it there again after the
overwrite. -/
theorem tombstone_lookup_counterexample :
    (FindEntry (identityShape true) sampleRoots fullTable keyB 1 1 = Outcome.value ⟨1⟩ ∧
      fullTable.set (KeyIndex (identityShape true) ⟨1⟩) sampleRoots.the_hole_value =
        some fullTableTombstoned ∧
      (∀ i, i < 4 → i ≠ 1 →
        HitAt (identityShape true) sampleRoots fullTableTombstoned keyB ⟨i⟩ = false) ∧
      ∀ fuel, FindEntry (identityShape true) sampleRoots fullTableTombstoned keyB 1 fuel =
        Outcome.outOfFuel) ∧
    (FindEntry (identityShape false) sampleRoots holeTable sampleRoots.the_hole_value 1 1 =
        Outcome.value ⟨1⟩ ∧
      holeTable.set (KeyIndex (identityShape false) ⟨1⟩) sampleRoots.the_hole_value =
        some holeTable ∧
      (∀ i, i < 4 → i ≠ 1 →
        HitAt (identityShape false) sampleRoots holeTable sampleRoots.the_hole_value ⟨i⟩ =
          false) ∧
      EmptyAt (identityShape false) sampleRoots holeTable ⟨0⟩ = true ∧
      ∀ fuel, 1 ≤ fuel →
        FindEntry (identityShape false) sampleRoots holeTable sampleRoots.the_hole_value 1 fuel =
          Outcome.value ⟨1⟩) := by
  refine ⟨⟨by decide, by decide, by decide, ?_⟩, ⟨by decide, by decide, by decide, by decide, ?_⟩⟩
  · intro fuel
    exact loop_never_returns (identityShape true) sampleRoots fullTableTombstoned keyB 1 2
      (by decide) (by decide) fuel
  · intro fuel hfuel
    exact findEntry_mono (identityShape false) sampleRoots holeTable sampleRoots.the_hole_value
      1 1 fuel ⟨1⟩ (by decide) hfuel

/-! ## Capacity: room to spare and monotonicity -/

/-- Claim C17.  Where `0 ≤ n` and `n + ⌊n/2⌋ ≤ 2^30`, and the minimum capacity is
at least 2, `ComputeCapacity n` is strictly greater than `n`; so a table of that
capacity in which at most `n` key slots are not Empty has an Empty key slot. -/
theorem computeCapacity_gt (kMinCapacity n : Int) (hmin : 2 ≤ kMinCapacity)
    (h0 : 0 ≤ n) (h1 : n + n / 2 ≤ 2 ^ 30) :
    n < ComputeCapacity kMinCapacity n ∧
    (∀ (Key : Type) (S : Shape Key) (roots : ReadOnlyRoots) (t : FixedArray),
      Capacity t = some (ComputeCapacity kMinCapacity n) →
      (((List.range (ComputeCapacity kMinCapacity n).toNat).countP
        (fun i => !EmptyAt S roots t ⟨i⟩) : Nat) : Int) ≤ n →
      ∃ i : Nat, (i : Int) < ComputeCapacity kMinCapacity n ∧
        EmptyAt S roots t ⟨i⟩ = true) := by
  obtain ⟨_, k, _, hle, _, hcc⟩ := computeCapacity_eq kMinCapacity n h0 h1
  have hgt : n < ComputeCapacity kMinCapacity n := by
    rw [hcc]
    rcases le_or_lt 2 n with h2 | h2
    · have : n < n + n / 2 := by omega
      exact lt_of_lt_of_le (lt_of_lt_of_le this hle) (le_max_left _ _)
    · exact lt_of_lt_of_le (lt_of_lt_of_le h2 hmin) (le_max_right _ _)
  refine ⟨hgt, ?_⟩
  intro Key S roots t _ hcount
  by_contra hnone
  have hall : ∀ i ∈ List.range (ComputeCapacity kMinCapacity n).toNat,
      (fun i => !EmptyAt S roots t ⟨i⟩) i = true := by
    intro i hi
    have hi2 : i < (ComputeCapacity kMinCapacity n).toNat := List.mem_range.mp hi
    cases hh : EmptyAt S roots t ⟨i⟩
    · show (!EmptyAt S roots t ⟨i⟩) = true
      rw [hh]
      rfl
    · exact absurd ⟨i, by omega, hh⟩ hnone
  rw [List.countP_eq_length.mpr hall, List.length_range] at hcount
  omega

theorem computeCapacity_gt_witness :
    (10 : Int) < ComputeCapacity 4 10 ∧ (1 : Int) < ComputeCapacity 4 1 :=
  ⟨(computeCapacity_gt 4 10 (by decide) (by decide) (by decide)).1,
    (computeCapacity_gt 4 1 (by decide) (by decide) (by decide)).1⟩

/-- Claim C18.  `ComputeCapacity` is monotone: for `0 ≤ m ≤ n` with
`n + ⌊n/2⌋ ≤ 2^30`, `ComputeCapacity m ≤ ComputeCapacity n`. -/
theorem computeCapacity_mono (kMinCapacity m n : Int) (hm0 : 0 ≤ m) (hmn : m ≤ n)
    (h1 : n + n / 2 ≤ 2 ^ 30) :
    ComputeCapacity kMinCapacity m ≤ ComputeCapacity kMinCapacity n := by
  have hraw : m + m / 2 ≤ n + n / 2 := by omega
  obtain ⟨_, km, _, _, hminm, hccm⟩ :=
    computeCapacity_eq kMinCapacity m hm0 (le_trans hraw h1)
  obtain ⟨_, kn, _, hlen, _, hccn⟩ := computeCapacity_eq kMinCapacity n (by omega) h1
  have hk : km ≤ kn := hminm kn (le_trans hraw hlen)
  have hpow : (2 : Int) ^ km ≤ 2 ^ kn := by
    exact_mod_cast Nat.pow_le_pow_right (by decide : 0 < 2) hk
  rw [hccm, hccn]
  exact max_le_max hpow le_rfl

theorem computeCapacity_mono_witness :
    ComputeCapacity 4 3 ≤ ComputeCapacity 4 10 :=
  computeCapacity_mono 4 3 10 (by decide) (by decide) (by decide)

/-! ## Liveness of a slot value -/

/-- Claim C11.  `BaseShape::IsLive(roots, v)` is true exactly when `v` is neither
the Empty sentinel nor the Tombstone sentinel, `BaseShape::IsKey` equals
`IsLive`, and every slot value is in exactly one of the states Empty, Tombstone
and Live. -/
theorem isLive_three_states (roots : ReadOnlyRoots) (v : Object) :
    (BaseShape.IsLive roots v = true ↔
      v ≠ roots.undefined_value ∧ v ≠ roots.the_hole_value) ∧
    BaseShape.IsKey roots v = BaseShape.IsLive roots v ∧
    (v = roots.undefined_value ∨ v = roots.the_hole_value ∨
      BaseShape.IsLive roots v = true) ∧
    ¬ (v = roots.undefined_value ∧ v = roots.the_hole_value) ∧
    ¬ (v = roots.undefined_value ∧ BaseShape.IsLive roots v = true) ∧
    ¬ (v = roots.the_hole_value ∧ BaseShape.IsLive roots v = true) := by
  have hd := roots.distinct
  have hiff : BaseShape.IsLive roots v = true ↔
      v ≠ roots.undefined_value ∧ v ≠ roots.the_hole_value := by
    unfold BaseShape.IsLive
    simp only [Bool.and_eq_true, decide_eq_true_eq]
    exact And.comm
  refine ⟨hiff, rfl, ?_, ?_, ?_, ?_⟩
  · by_cases h1 : v = roots.undefined_value
    · exact Or.inl h1
    · by_cases h2 : v = roots.the_hole_value
      · exact Or.inr (Or.inl h2)
      · exact Or.inr (Or.inr (hiff.mpr ⟨h1, h2⟩))
  · rintro ⟨h1, h2⟩
    exact hd (h2.symm.trans h1)
  · rintro ⟨h1, h2⟩
    exact (hiff.mp h2).1 h1
  · rintro ⟨h1, h2⟩
    exact (hiff.mp h2).2 h1

/-! ## Termination of the lookup -/

theorem loopTrace_length_le {Key : Type} (S : Shape Key) (roots : ReadOnlyRoots)
    (t : FixedArray) (key : Key) (hash capacity : Nat) :
    ∀ (fuel N K : Nat),
      PassedAt S roots t key (probeSequence hash capacity (N + K)) = false →
      (FindEntryLoopTrace S roots t key capacity fuel (probeSequence hash capacity N)
        (wrapUint32 ((N : Int) + 1))).length ≤ K + 1 := by
  intro fuel
  induction fuel with
  | zero =>
    intro N K _
    have h0 : FindEntryLoopTrace S roots t key capacity 0 (probeSequence hash capacity N)
        (wrapUint32 ((N : Int) + 1)) = [] := rfl
    rw [h0]
    exact Nat.zero_le _
  | succ f ih =>
    intro N K hK
    rcases slot_cases S roots t key (probeSequence hash capacity N) with h0 | h0 | h0 | h0
    · rw [loopTrace_done S roots t key capacity f _ _ _
        (body_fault S roots t key capacity _ _ h0)]
      exact Nat.succ_le_succ (Nat.zero_le _)
    · rw [loopTrace_done S roots t key capacity f _ _ _
        (body_empty S roots t key capacity _ _ h0)]
      exact Nat.succ_le_succ (Nat.zero_le _)
    · rw [loopTrace_done S roots t key capacity f _ _ _
        (body_hit S roots t key capacity _ _ h0)]
      exact Nat.succ_le_succ (Nat.zero_le _)
    · rw [loopTrace_passed S roots t key capacity f _ _ h0, count_succ]
      rcases K with _ | K
      · rw [Nat.add_zero, h0] at hK
        exact absurd hK (by decide)
      · have := ih (N + 1) K (by rwa [show N + (K + 1) = N + 1 + K by omega] at hK)
        rw [List.length_cons]
        exact Nat.succ_le_succ this

theorem findEntryTrace_length_le {Key : Type} (S : Shape Key) (roots : ReadOnlyRoots)
    (t : FixedArray) (key : Key) (hash : Int) (c : Int) (hcap : Capacity t = some c) (K : Nat)
    (hK : PassedAt S roots t key (probeSequence (wrapUint32 hash) (wrapUint32 c) K) = false)
    (fuel : Nat) : (FindEntryTrace S roots t key hash fuel).length ≤ K + 1 := by
  rw [findEntryTrace_eq S roots t key hash fuel c hcap]
  exact loopTrace_length_le S roots t key _ _ fuel 0 K (by rw [Nat.zero_add]; exact hK)

/-- On a laid-out table of capacity `2^k`, a lookup whose probe sequence has an
entry at position `N0` that is Empty or a hit returns within `N0 + 1` passes. -/
theorem findEntry_returns_by {Key : Type} (S : Shape Key) (roots : ReadOnlyRoots)
    (t : FixedArray) (key : Key) (hash : Int) (k : Nat)
    (hcap : Capacity t = some (2 ^ k)) (hl : TableLayout S t (2 ^ k) = true) (N0 : Nat)
    (hstop : PassedAt S roots t key (probeSequence (wrapUint32 hash) (2 ^ k) N0) = false) :
    ∃ r, FindEntry S roots t key hash (N0 + 1) = Outcome.value r := by
  have hk : k ≤ 30 := capacity_pow_le hcap
  have hw : wrapUint32 ((2 : Int) ^ k) = 2 ^ k := wrapUint32_two_pow k (by omega)
  have hex : ∃ N, PassedAt S roots t key (probeSequence (wrapUint32 hash) (2 ^ k) N) = false :=
    ⟨N0, hstop⟩
  have hfirst := Nat.find_spec hex
  have hle : Nat.find hex ≤ N0 := Nat.find_min' hex hstop
  have hpass : ∀ M, M < Nat.find hex →
      PassedAt S roots t key (probeSequence (wrapUint32 hash) (wrapUint32 ((2 : Int) ^ k)) M) =
        true := by
    intro M hM
    rw [hw]
    simpa using Nat.find_min hex hM
  have hlt : (((probeSequence (wrapUint32 hash) (2 ^ k) (Nat.find hex)).raw : Nat) : Int) <
      2 ^ k := by
    exact_mod_cast probeSequence_lt (wrapUint32 hash) k (by omega) (Nat.find hex)
  obtain ⟨o, ho⟩ := keyAt_readable S t _ hl _ hlt
  rcases slot_cases S roots t key (probeSequence (wrapUint32 hash) (2 ^ k) (Nat.find hex))
    with h0 | h0 | h0 | h0
  · rw [ho] at h0
    exact absurd h0 (by simp)
  · exact ⟨_, findEntry_empty S roots t key hash _ hcap (Nat.find hex) hpass
      (by rw [hw]; exact h0) (N0 + 1) (by omega)⟩
  · exact ⟨_, findEntry_hit S roots t key hash _ hcap (Nat.find hex) hpass
      (by rw [hw]; exact h0) (N0 + 1) (by omega)⟩
  · rw [h0] at hfirst
    exact absurd hfirst (by decide)

/-- Claim C14.  On a laid-out table of capacity `2^k` with at least one Empty key
slot, `FindEntry` returns for every key and hash within `2^k` passes of its
loop, and never examines more than `2^k` entries. -/
theorem findEntry_terminates {Key : Type} (S : Shape Key) (roots : ReadOnlyRoots)
    (t : FixedArray) (key : Key) (hash : Int) (k : Nat)
    (hcap : Capacity t = some (2 ^ k)) (hl : TableLayout S t (2 ^ k) = true)
    (hempty : ∃ i, i < 2 ^ k ∧ EmptyAt S roots t ⟨i⟩ = true) :
    (∃ fuel r, fuel ≤ 2 ^ k ∧ FindEntry S roots t key hash fuel = Outcome.value r) ∧
    (∀ fuel, (FindEntryTrace S roots t key hash fuel).length ≤ 2 ^ k) := by
  have hk : k ≤ 30 := capacity_pow_le hcap
  have hw : wrapUint32 ((2 : Int) ^ k) = 2 ^ k := wrapUint32_two_pow k (by omega)
  obtain ⟨i0, hi0, hemp⟩ := hempty
  obtain ⟨N0, hN0, hp⟩ := probeSequence_surjective (wrapUint32 hash) k (by omega) i0 hi0
  have hstop : PassedAt S roots t key (probeSequence (wrapUint32 hash) (2 ^ k) N0) = false := by
    rw [internalIndex_eta (probeSequence (wrapUint32 hash) (2 ^ k) N0), hp]
    exact (empty_not_hit S roots t key ⟨i0⟩ hemp).2
  obtain ⟨r, hr⟩ := findEntry_returns_by S roots t key hash k hcap hl N0 hstop
  refine ⟨⟨N0 + 1, r, by omega, hr⟩, ?_⟩
  intro fuel
  have := findEntryTrace_length_le S roots t key hash _ hcap N0 (by rw [hw]; exact hstop) fuel
  omega

theorem findEntry_terminates_witness :
    (∃ fuel r, fuel ≤ 2 ^ 3 ∧
      FindEntry (identityShape true) sampleRoots sampleTable keyC 17 fuel = Outcome.value r) ∧
    (∀ fuel, (FindEntryTrace (identityShape true) sampleRoots sampleTable keyC 17 fuel).length ≤
      2 ^ 3) :=
  findEntry_terminates (identityShape true) sampleRoots sampleTable keyC 17 3
    (by decide) (by decide) ⟨0, by decide, by decide⟩

/-- Claim C15, as amended.  On a laid-out table of capacity `2^k`, `FindEntry`
returns a result exactly when some entry is Empty or holds a key that matches;
and then it returns within `2^k` passes of its loop and examines at most `2^k`
entries. -/
theorem findEntry_bounded {Key : Type} (S : Shape Key) (roots : ReadOnlyRoots)
    (t : FixedArray) (key : Key) (hash : Int) (k : Nat)
    (hcap : Capacity t = some (2 ^ k)) (hl : TableLayout S t (2 ^ k) = true) :
    ((∃ fuel r, FindEntry S roots t key hash fuel = Outcome.value r) ↔
      ∃ i, i < 2 ^ k ∧ (EmptyAt S roots t ⟨i⟩ = true ∨ HitAt S roots t key ⟨i⟩ = true)) ∧
    ((∃ i, i < 2 ^ k ∧ (EmptyAt S roots t ⟨i⟩ = true ∨ HitAt S roots t key ⟨i⟩ = true)) →
      (∃ fuel r, fuel ≤ 2 ^ k ∧ FindEntry S roots t key hash fuel = Outcome.value r) ∧
      (∀ fuel, (FindEntryTrace S roots t key hash fuel).length ≤ 2 ^ k)) := by
  have hk : k ≤ 30 := capacity_pow_le hcap
  have hw : wrapUint32 ((2 : Int) ^ k) = 2 ^ k := wrapUint32_two_pow k (by omega)
  have hback : (∃ i, i < 2 ^ k ∧
      (EmptyAt S roots t ⟨i⟩ = true ∨ HitAt S roots t key ⟨i⟩ = true)) →
      (∃ fuel r, fuel ≤ 2 ^ k ∧ FindEntry S roots t key hash fuel = Outcome.value r) ∧
      (∀ fuel, (FindEntryTrace S roots t key hash fuel).length ≤ 2 ^ k) := by
    rintro ⟨i0, hi0, hor⟩
    obtain ⟨N0, hN0, hp⟩ := probeSequence_surjective (wrapUint32 hash) k (by omega) i0 hi0
    have hstop : PassedAt S roots t key (probeSequence (wrapUint32 hash) (2 ^ k) N0) = false := by
      rw [internalIndex_eta (probeSequence (wrapUint32 hash) (2 ^ k) N0), hp]
      rcases hor with h | h
      · exact (empty_not_hit S roots t key ⟨i0⟩ h).2
      · exact (hit_not_passed S roots t key ⟨i0⟩ h).1
    obtain ⟨r, hr⟩ := findEntry_returns_by S roots t key hash k hcap hl N0 hstop
    refine ⟨⟨N0 + 1, r, by omega, hr⟩, ?_⟩
    intro fuel
    have := findEntryTrace_length_le S roots t key hash _ hcap N0 (by rw [hw]; exact hstop) fuel
    omega
  refine ⟨⟨?_, ?_⟩, hback⟩
  · rintro ⟨fuel, r, hr⟩
    obtain ⟨K, _, _, hres⟩ := findEntry_value_inv S roots t key hash fuel _ r hcap hr
    rw [hw] at hres
    refine ⟨(probeSequence (wrapUint32 hash) (2 ^ k) K).raw,
      probeSequence_lt (wrapUint32 hash) k (by omega) K, ?_⟩
    rw [← internalIndex_eta]
    rcases hres with ⟨h, _⟩ | ⟨h, _⟩
    · exact Or.inr h
    · exact Or.inl h
  · intro h
    obtain ⟨⟨fuel, r, _, hr⟩, _⟩ := hback h
    exact ⟨fuel, r, hr⟩

theorem findEntry_bounded_witness :
    (∃ fuel r, fuel ≤ 2 ^ 2 ∧
      FindEntry (identityShape true) sampleRoots fullTable keyC 0 fuel = Outcome.value r) ∧
    (∀ fuel, (FindEntryTrace (identityShape true) sampleRoots fullTable keyC 0 fuel).length ≤
      2 ^ 2) :=
  (findEntry_bounded (identityShape true) sampleRoots fullTable keyC 0 2
    (by decide) (by decide)).2 ⟨2, by decide, Or.inr (by decide)⟩

/-- Claim C15 fails as stated: in the full capacity-4 table, which holds four
live keys and no Empty entry, the lookup of a key that is not in the table never
returns, whatever number of passes it is given. -/
theorem findEntry_bounded_counterexample :
    Capacity fullTable = some (2 ^ 2) ∧
    TableLayout (identityShape true) fullTable (2 ^ 2) = true ∧
    HeaderInvariant fullTable = true ∧
    ∀ fuel, FindEntry (identityShape true) sampleRoots fullTable keyE 0 fuel =
      Outcome.outOfFuel :=
  ⟨by decide, by decide, by decide, fun fuel =>
    loop_never_returns (identityShape true) sampleRoots fullTable keyE 0 2
      (by decide) (by decide) fuel⟩

/-! ## Entries stay inside the table -/

theorem findEntryTrace_mem {Key : Type} (S : Shape Key) (roots : ReadOnlyRoots)
    (t : FixedArray) (key : Key) (hash : Int) (c : Int) (hcap : Capacity t = some c)
    (fuel : Nat) (p : InternalIndex) (hp : p ∈ FindEntryTrace S roots t key hash fuel) :
    ∃ N, p = probeSequence (wrapUint32 hash) (wrapUint32 c) N := by
  obtain ⟨i, hi⟩ := List.mem_iff_getElem?.mp hp
  rw [findEntryTrace_eq S roots t key hash fuel c hcap] at hi
  have := loopTrace_get S roots t key (wrapUint32 hash) (wrapUint32 c) fuel 0 i p hi
  exact ⟨0 + i, this⟩

/-- Claim C16.  On a table of capacity `2^k`, for every key and every hash,
negative ones included: every entry `FindEntry` passes to `KeyAt` is below
`2^k`; under the storage layout its key slot lies in the entry region of the
array and can be read; and a found index that is returned is below `2^k`. -/
theorem findEntry_entries_in_range {Key : Type} (S : Shape Key) (roots : ReadOnlyRoots)
    (t : FixedArray) (key : Key) (hash : Int) (k : Nat)
    (hcap : Capacity t = some (2 ^ k)) :
    (∀ (fuel : Nat) (p : InternalIndex), p ∈ FindEntryTrace S roots t key hash fuel →
      p.raw < 2 ^ k) ∧
    (TableLayout S t (2 ^ k) = true →
      ∀ (fuel : Nat) (p : InternalIndex), p ∈ FindEntryTrace S roots t key hash fuel →
        kElementsStartIndex S ≤ KeyIndex S p ∧
        KeyIndex S p < kElementsStartIndex S + 2 ^ k * S.kEntrySize ∧
        KeyIndex S p < t.length ∧ ∃ o, KeyAt S t p = some o) ∧
    (∀ (fuel : Nat) (e : InternalIndex),
      FindEntry S roots t key hash fuel = Outcome.value e → e.is_found = true →
        e.raw < 2 ^ k) := by
  have hk : k ≤ 30 := capacity_pow_le hcap
  have hw : wrapUint32 ((2 : Int) ^ k) = 2 ^ k := wrapUint32_two_pow k (by omega)
  have hrange : ∀ (fuel : Nat) (p : InternalIndex),
      p ∈ FindEntryTrace S roots t key hash fuel → p.raw < 2 ^ k := by
    intro fuel p hp
    obtain ⟨N, hN⟩ := findEntryTrace_mem S roots t key hash _ hcap fuel p hp
    rw [hN, hw]
    exact probeSequence_lt (wrapUint32 hash) k (by omega) N
  refine ⟨hrange, ?_, ?_⟩
  · intro hl fuel p hp
    have hlt : ((p.raw : Nat) : Int) < 2 ^ k := by exact_mod_cast hrange fuel p hp
    obtain ⟨heq, _, hlen⟩ := keyIndex_of_layout S t _ hl p hlt
    have hl2 := hl
    simp only [TableLayout, Bool.and_eq_true, decide_eq_true_eq] at hl2
    obtain ⟨⟨⟨_, hsize⟩, _⟩, _⟩ := hl2
    have hx0 : (0 : Int) ≤ (p.raw : Int) := Int.natCast_nonneg _
    have hmul : ((p.raw : Int) + 1) * S.kEntrySize ≤ 2 ^ k * S.kEntrySize :=
      mul_le_mul_of_nonneg_right (by omega) (by omega)
    have hexp : ((p.raw : Int) + 1) * S.kEntrySize =
        (p.raw : Int) * S.kEntrySize + S.kEntrySize := by ring
    have hnn : 0 ≤ (p.raw : Int) * S.kEntrySize := mul_nonneg hx0 (by omega)
    rw [hexp] at hmul
    refine ⟨?_, ?_, hlen, keyAt_readable S t _ hl p hlt⟩
    · rw [heq]; omega
    · rw [heq]; omega
  · intro fuel e he hf
    obtain ⟨K, _, _, hres⟩ := findEntry_value_inv S roots t key hash fuel _ e hcap he
    rw [hw] at hres
    rcases hres with ⟨_, h2⟩ | ⟨_, h2⟩
    · rw [h2]
      exact probeSequence_lt (wrapUint32 hash) k (by omega) K
    · rw [h2, notFound_not_found] at hf
      exact absurd hf (by decide)

theorem findEntry_entries_in_range_witness :
    (∀ (fuel : Nat) (p : InternalIndex),
      p ∈ FindEntryTrace (identityShape true) sampleRoots sampleTable keyC (-15) fuel →
        p.raw < 2 ^ 3) ∧
    (∀ (fuel : Nat) (p : InternalIndex),
      p ∈ FindEntryTrace (identityShape true) sampleRoots sampleTable keyC (-15) fuel →
        kElementsStartIndex (identityShape true) ≤ KeyIndex (identityShape true) p ∧
        KeyIndex (identityShape true) p <
          kElementsStartIndex (identityShape true) + 2 ^ 3 * (identityShape true).kEntrySize ∧
        KeyIndex (identityShape true) p < sampleTable.length ∧
        ∃ o, KeyAt (identityShape true) sampleTable p = some o) :=
  ⟨(findEntry_entries_in_range (identityShape true) sampleRoots sampleTable keyC (-15) 3
      (by decide)).1,
    (findEntry_entries_in_range (identityShape true) sampleRoots sampleTable keyC (-15) 3
      (by decide)).2.1 (by decide)⟩

/-! ## Membership test of the set variant -/

/-- Claim C12.  `ObjectHashSet::Has(key)` returns `false`, whatever the table and
the fuel, and examines no entry when the cached hash of the key is not a Smi;
when the cached hash is the Smi `h`, it equals `Has(key, h)`, which is `true`
exactly when `FindEntry(key, h)` returns a found index. -/
theorem has_fast_path {Key : Type} (S : Shape Key) (roots : ReadOnlyRoots) (t : FixedArray)
    (GetHash : Key → Object) (key : Key) (fuel : Nat) :
    ((GetHash key).IsSmi = false →
      ObjectHashSet.Has S roots t GetHash key fuel = Outcome.value false ∧
      ObjectHashSet.HasTrace S roots t GetHash key fuel = []) ∧
    (∀ h : Int, GetHash key = Smi.FromInt h → IsInt32 h →
      ObjectHashSet.Has S roots t GetHash key fuel =
        ObjectHashSet.HasWithHash S roots t key h fuel ∧
      (ObjectHashSet.HasWithHash S roots t key h fuel = Outcome.value true ↔
        ∃ e, FindEntry S roots t key h fuel = Outcome.value e ∧ e.is_found = true) ∧
      (ObjectHashSet.Has S roots t GetHash key fuel = Outcome.value true ↔
        ∃ e, FindEntry S roots t key h fuel = Outcome.value e ∧ e.is_found = true)) := by
  have hiff : ∀ h : Int,
      (ObjectHashSet.HasWithHash S roots t key h fuel = Outcome.value true ↔
        ∃ e, FindEntry S roots t key h fuel = Outcome.value e ∧ e.is_found = true) := by
    intro h
    unfold ObjectHashSet.HasWithHash
    generalize FindEntry S roots t key h fuel = r
    cases r with
    | value e =>
      constructor
      · intro he
        exact ⟨e, rfl, Outcome.value.inj he⟩
      · rintro ⟨e1, h1, h2⟩
        cases h1
        show Outcome.value e.is_found = Outcome.value true
        rw [h2]
    | fault =>
      constructor
      · intro he; cases he
      · rintro ⟨e1, h1, _⟩; cases h1
    | outOfFuel =>
      constructor
      · intro he; cases he
      · rintro ⟨e1, h1, _⟩; cases h1
  constructor
  · intro hns
    unfold ObjectHashSet.Has ObjectHashSet.HasTrace
    rw [hns]
    exact ⟨rfl, rfl⟩
  · intro h hh hr
    have heq : ObjectHashSet.Has S roots t GetHash key fuel =
        ObjectHashSet.HasWithHash S roots t key h fuel := by
      unfold ObjectHashSet.Has ObjectHashSet.HasWithHash
      rw [hh]
      have h1 : (Smi.FromInt h).IsSmi = true := rfl
      have h2 : Smi.ToInt (Smi.FromInt h) = some h := by
        show (if IsInt32 h then some h else none) = some h
        rw [if_pos hr]
      rw [h1, h2]
      rfl
    exact ⟨heq, hiff h, by rw [heq]; exact hiff h⟩

theorem has_fast_path_witness :
    (ObjectHashSet.Has (identityShape true) sampleRoots sampleTable sampleGetHash keyC 0 =
        Outcome.value false ∧
      ObjectHashSet.HasTrace (identityShape true) sampleRoots sampleTable sampleGetHash keyC 0 =
        []) ∧
    ObjectHashSet.Has (identityShape true) sampleRoots sampleTable sampleGetHash keyB 2 =
      ObjectHashSet.HasWithHash (identityShape true) sampleRoots sampleTable keyB 9 2 ∧
    ObjectHashSet.Has (identityShape true) sampleRoots sampleTable sampleGetHash keyB 2 =
      Outcome.value true :=
  ⟨(has_fast_path (identityShape true) sampleRoots sampleTable sampleGetHash keyC 0).1
      (by decide),
    ((has_fast_path (identityShape true) sampleRoots sampleTable sampleGetHash keyB 2).2 9
      (by decide) (by decide)).1,
    ((has_fast_path (identityShape true) sampleRoots sampleTable sampleGetHash keyB 2).2 9
      (by decide) (by decide)).2.2.mpr ⟨⟨2⟩, by decide, by decide⟩⟩

/-! ## Reading a key out of an entry -/

/-- Claim C19.  For an entry below the capacity of a laid-out table, `ToKey`
completes; it returns `true` exactly when `Shape::IsKey` accepts the stored key,
which for the `IsKey` of `BaseShape` means the key is neither Empty nor a
Tombstone; `*out_k` is `Shape::Unwrap` of the stored key when it returns `true`
and is unchanged when it returns `false`; and the table is the same afterwards. -/
theorem toKey_spec {Key : Type} (S : KeyShape Key) (roots : ReadOnlyRoots) (t : FixedArray)
    (c : Int) (entry : InternalIndex) (out_k : Object)
    (hl : TableLayout S.toShape t c = true) (he : (entry.raw : Int) < c) :
    ∃ k res, KeyAt S.toShape t entry = some k ∧ ToKey S roots t entry out_k = some res ∧
      res.table = t ∧
      (res.result = true ↔ S.IsKey roots k = true) ∧
      (S.IsKey = BaseShape.IsKey →
        (res.result = true ↔ k ≠ roots.undefined_value ∧ k ≠ roots.the_hole_value)) ∧
      (res.result = true → res.out_k = S.Unwrap k) ∧
      (res.result = false → res.out_k = out_k) := by
  obtain ⟨k, hk⟩ := keyAt_readable S.toShape t c hl entry he
  have hbase : BaseShape.IsKey roots k = true ↔
      k ≠ roots.undefined_value ∧ k ≠ roots.the_hole_value := by
    unfold BaseShape.IsKey BaseShape.IsLive
    simp only [Bool.and_eq_true, decide_eq_true_eq]
    exact And.comm
  cases hkey : S.IsKey roots k with
  | false =>
    refine ⟨k, { table := t, result := false, out_k := out_k }, hk, ?_, rfl, ?_, ?_, ?_, ?_⟩
    · unfold ToKey
      rw [hk]
      simp only [hkey, Bool.not_false, if_true]
    · simp [hkey]
    · intro hS
      rw [hS] at hkey
      rw [← hbase, hkey]
    · intro h; cases h
    · intro _; rfl
  | true =>
    refine ⟨k, { table := t, result := true, out_k := S.Unwrap k }, hk, ?_, rfl, ?_, ?_, ?_, ?_⟩
    · unfold ToKey
      rw [hk]
      simp only [hkey, Bool.not_true, if_false]
      rfl
    · simp [hkey]
    · intro hS
      rw [hS] at hkey
      rw [← hbase, hkey]
    · intro _; rfl
    · intro h; cases h

theorem toKey_spec_witness :
    ToKey (identityKeyShape true) sampleRoots sampleTable ⟨1⟩ keyE =
      some { table := sampleTable, result := true, out_k := keyA } ∧
    ToKey (identityKeyShape true) sampleRoots sampleTable ⟨0⟩ keyE =
      some { table := sampleTable, result := false, out_k := keyE } ∧
    ∃ k res, KeyAt (identityKeyShape true).toShape sampleTable ⟨1⟩ = some k ∧
      ToKey (identityKeyShape true) sampleRoots sampleTable ⟨1⟩ keyE = some res ∧
      res.table = sampleTable ∧
      (res.result = true ↔ (identityKeyShape true).IsKey sampleRoots k = true) ∧
      ((identityKeyShape true).IsKey = BaseShape.IsKey →
        (res.result = true ↔
          k ≠ sampleRoots.undefined_value ∧ k ≠ sampleRoots.the_hole_value)) ∧
      (res.result = true → res.out_k = (identityKeyShape true).Unwrap k) ∧
      (res.result = false → res.out_k = keyE) :=
  ⟨by decide, by decide,
    toKey_spec (identityKeyShape true) sampleRoots sampleTable 8 ⟨1⟩ keyE (by decide)
      (by decide)⟩

/-! ## Key stores and barriers -/

/-- Where the byte size of the array is an `int`, the offset of an element in
range is computed without overflow and is the offset of that element. -/
theorem offsetOfElementAt_eq (L : FieldLayout) (t : FixedArray) (index : Int)
    (hts : 0 < L.kTaggedSize) (hhs : 0 ≤ L.kHeaderSize) (h0 : 0 ≤ index)
    (h1 : index < t.length)
    (hsize : L.kHeaderSize + t.length * L.kTaggedSize ≤ 2147483647) :
    OffsetOfElementAt L index = L.kHeaderSize + index * L.kTaggedSize ∧
    (OffsetOfElementAt L index - L.kHeaderSize) % L.kTaggedSize = 0 ∧
    (OffsetOfElementAt L index - L.kHeaderSize) / L.kTaggedSize = index := by
  have hmul : index * L.kTaggedSize ≤ t.length * L.kTaggedSize :=
    mul_le_mul_of_nonneg_right (le_of_lt h1) (le_of_lt hts)
  have hnn : 0 ≤ index * L.kTaggedSize := mul_nonneg h0 (le_of_lt hts)
  have hoff : OffsetOfElementAt L index = L.kHeaderSize + index * L.kTaggedSize := by
    unfold OffsetOfElementAt
    generalize index * L.kTaggedSize = y at hmul hnn
    generalize t.length * L.kTaggedSize = z at hmul hsize
    rw [wrapInt32_of_isInt32 (x := y) (by unfold IsInt32; omega)]
    rw [wrapInt32_of_isInt32 (by unfold IsInt32; omega)]
  have hsub : L.kHeaderSize + index * L.kTaggedSize - L.kHeaderSize = index * L.kTaggedSize := by
    ring
  refine ⟨hoff, ?_, ?_⟩
  · rw [hoff, hsub]
    exact Int.mul_emod_left _ _
  · rw [hoff, hsub]
    exact Int.mul_ediv_cancel _ (ne_of_gt hts)

/-- Claim C13.  With stores and barrier calls recorded as events, and for an
index in range of an array whose byte size is an `int`:
`EphemeronHashTable::set_key(index, value)` stores `value` in element `index`, at
byte offset `kHeaderSize + index * kTaggedSize`, changes no other element, and
records after the store exactly one weak-key barrier call, with that table,
offset and value, and no ordinary barrier call; `HashTable::set_key` on a table
that is not an ephemeron table stores the same element, with one ordinary
barrier call and no weak-key barrier call. -/
theorem set_key_barriers (L : FieldLayout) (t : FixedArray) (index : Int) (value : Object)
    (hts : 0 < L.kTaggedSize) (hhs : 0 ≤ L.kHeaderSize) (h0 : 0 ≤ index)
    (h1 : index < t.length)
    (hsize : L.kHeaderSize + t.length * L.kTaggedSize ≤ 2147483647) :
    ∃ t1 events events1,
      EphemeronHashTable.set_key L InstanceType.ephemeronHashTable t index value =
        some (t1, events) ∧
      t1.get index = some value ∧ (∀ j, j ≠ index → t1.get j = t.get j) ∧
      t1.length = t.length ∧
      events = [HeapEvent.store (L.kHeaderSize + index * L.kTaggedSize) value,
        HeapEvent.ephemeronKeyWriteBarrier t1 (L.kHeaderSize + index * L.kTaggedSize) value] ∧
      events.countP HeapEvent.isEphemeronKeyWriteBarrier = 1 ∧
      events.countP HeapEvent.isWriteBarrier = 0 ∧
      HashTable.set_key L InstanceType.hashTable t index value = some (t1, events1) ∧
      events1 = [HeapEvent.store (L.kHeaderSize + index * L.kTaggedSize) value,
        HeapEvent.writeBarrier t1 (L.kHeaderSize + index * L.kTaggedSize) value] ∧
      events1.countP HeapEvent.isEphemeronKeyWriteBarrier = 0 ∧
      events1.countP HeapEvent.isWriteBarrier = 1 := by
  obtain ⟨hoff, hmod, hdiv⟩ := offsetOfElementAt_eq L t index hts hhs h0 h1 hsize
  obtain ⟨t1, hset⟩ := fixedArray_set_isSome t index value h0 h1
  obtain ⟨hsame, hother, hlen⟩ := fixedArray_set_spec hset
  have hwrite : WriteField L t (OffsetOfElementAt L index) value = some t1 := by
    unfold WriteField
    rw [if_pos hmod, hdiv]
    exact hset
  refine ⟨t1, _, _, ?_, hsame, hother, hlen, rfl, rfl, rfl, ?_, rfl, rfl, rfl⟩
  · have hdef : EphemeronHashTable.set_key L InstanceType.ephemeronHashTable t index value =
        match WriteField L t (OffsetOfElementAt L index) value with
        | none => none
        | some t1 =>
          some (t1, [HeapEvent.store (OffsetOfElementAt L index) value,
            HeapEvent.ephemeronKeyWriteBarrier t1 (OffsetOfElementAt L index) value]) := by
      unfold EphemeronHashTable.set_key
      rw [if_neg (by decide), if_neg (by decide), if_neg (not_not.mpr h0),
        if_neg (not_not.mpr h1)]
      rfl
    rw [hdef, hwrite, hoff]
  · unfold HashTable.set_key
    rw [if_neg (by decide)]
    unfold FixedArray.setRecorded
    rw [hset, hoff]

theorem set_key_barriers_witness :
    EphemeronHashTable.set_key sampleLayout InstanceType.ephemeronHashTable sampleTable 4 keyC =
      some (mkTable 2 0 8 [sampleRoots.undefined_value, keyC, keyB,
          sampleRoots.undefined_value, sampleRoots.undefined_value,
          sampleRoots.undefined_value, sampleRoots.undefined_value,
          sampleRoots.undefined_value],
        [HeapEvent.store 48 keyC,
          HeapEvent.ephemeronKeyWriteBarrier
            (mkTable 2 0 8 [sampleRoots.undefined_value, keyC, keyB,
              sampleRoots.undefined_value, sampleRoots.undefined_value,
              sampleRoots.undefined_value, sampleRoots.undefined_value,
              sampleRoots.undefined_value]) 48 keyC]) ∧
    ∃ t1 events events1,
      EphemeronHashTable.set_key sampleLayout InstanceType.ephemeronHashTable sampleTable 4
        keyC = some (t1, events) ∧
      t1.get 4 = some keyC ∧ (∀ j, j ≠ 4 → t1.get j = sampleTable.get j) ∧
      t1.length = sampleTable.length ∧
      events = [HeapEvent.store (sampleLayout.kHeaderSize + 4 * sampleLayout.kTaggedSize) keyC,
        HeapEvent.ephemeronKeyWriteBarrier t1
          (sampleLayout.kHeaderSize + 4 * sampleLayout.kTaggedSize) keyC] ∧
      events.countP HeapEvent.isEphemeronKeyWriteBarrier = 1 ∧
      events.countP HeapEvent.isWriteBarrier = 0 ∧
      HashTable.set_key sampleLayout InstanceType.hashTable sampleTable 4 keyC =
        some (t1, events1) ∧
      events1 = [HeapEvent.store (sampleLayout.kHeaderSize + 4 * sampleLayout.kTaggedSize) keyC,
        HeapEvent.writeBarrier t1
          (sampleLayout.kHeaderSize + 4 * sampleLayout.kTaggedSize) keyC] ∧
      events1.countP HeapEvent.isEphemeronKeyWriteBarrier = 0 ∧
      events1.countP HeapEvent.isWriteBarrier = 1 :=
  ⟨by decide,
    set_key_barriers sampleLayout sampleTable 4 keyC (by decide) (by decide) (by decide)
      (by decide) (by decide)⟩

end V8
